import Mathlib

set_option autoImplicit false

/-!
# goship: build server (`ship`) and self-update agent (`deploy`)

A shallow embedding of the Go sources.  Go maps are association lists, the
file system and the network are explicit values passed through the
functions, and every call that leaves the program (HTTP, git, the Go
toolchain, the operating system) is answered by an explicit environment
record, so the functions below are total and executable.
-/

deriving instance DecidableEq for Except

/-! ## Go library functions used by the sources -/

namespace strings

/-- Go `strings.HasSuffix`. -/
def HasSuffix (s suffix : String) : Bool :=
  suffix.data.reverse.isPrefixOf s.data.reverse

/-- Go `strings.HasPrefix`. -/
def HasPrefix (s pre : String) : Bool :=
  pre.data.isPrefixOf s.data

/-- Substring search on character lists. -/
def containsChars : List Char → List Char → Bool
  | [], sub => sub.isEmpty
  | c :: cs, sub => sub.isPrefixOf (c :: cs) || containsChars cs sub

/-- Go `strings.Contains`. -/
def Contains (s substr : String) : Bool :=
  containsChars s.data substr.data

/-- Position of the first occurrence of `sub`, if there is one. -/
def indexChars : List Char → List Char → Option Nat
  | [], sub => if sub.isEmpty then some 0 else none
  | c :: cs, sub =>
    if sub.isPrefixOf (c :: cs) then some 0 else (indexChars cs sub).map (· + 1)

/-- Go `strings.Index`; `none` stands for the result `-1`. -/
def Index (s substr : String) : Option Nat :=
  indexChars s.data substr.data

/-- The characters removed by `strings.TrimSpace`. -/
def isSpace (c : Char) : Bool :=
  c = ' ' ∨ c = '\t' ∨ c = '\n' ∨ c = '\r' ∨ c.toNat = 11 ∨ c.toNat = 12 ∨
    c.toNat = 133 ∨ c.toNat = 160

/-- Go `strings.TrimSpace`. -/
def TrimSpace (s : String) : String :=
  String.mk (((s.data.dropWhile isSpace).reverse.dropWhile isSpace).reverse)

/-- Go `strings.TrimPrefix`. -/
def TrimPrefix (s pre : String) : String :=
  if HasPrefix s pre then String.mk (s.data.drop pre.data.length) else s

/-- Replace the first occurrence of `old` in a character list. -/
def replaceFirst (old new : List Char) : List Char → List Char
  | [] => if old.isEmpty then new else []
  | c :: cs =>
    if old.isPrefixOf (c :: cs) then new ++ (c :: cs).drop old.length
    else c :: replaceFirst old new cs

/-- Go `strings.Replace(s, old, new, 1)`. -/
def Replace1 (s old new : String) : String :=
  String.mk (replaceFirst old.data new.data s.data)

/-- Go `strings.Join`. -/
def Join (elems : List String) (sep : String) : String :=
  String.mk (List.intercalate sep.data (elems.map String.data))

end strings

/-! ## Package `deploy`: the self-update agent -/

namespace deploy

/-- Contents of a file. -/
abbrev Bytes := List Nat

/-- A regular file: its bytes and its permission bits. -/
structure File where
  data : Bytes
  mode : Nat
deriving DecidableEq, Repr

/-- The files of the agent's machine, addressed by the path string handed to
the operating system. -/
abbrev Files := String → Option File

/-- Replace (or remove, with `none`) the file at path `p`. -/
def Files.set (fs : Files) (p : String) (f : Option File) : Files :=
  fun q => if q = p then f else fs q

/-- What `http.Get`, `gzip.NewReader` and `io.Copy` deliver for a URL. -/
inductive Fetched where
  /-- The call `http.Get` returned an error. -/
  | getError (e : String)
  /-- The call `gzip.NewReader` rejected the response body. -/
  | gzipError (e : String)
  /-- The copy wrote `written` to the file and then ended, cleanly (`none`)
  or with an error. -/
  | copied (written : Bytes) (err : Option String)

/-- Everything outside the agent: the digest function, the network and the
faults the operating system may report. -/
structure Host where
  /-- Hex digest, `fmt.Sprintf("%x", md5.Sum(b))`. -/
  md5 : Bytes → String
  get : String → Fetched
  createErr : Option String
  readErr : Option String
  chmodErr : Option String
  renameErr : Option String

/-- Go `deploy.Update`; `once` records whether `initialize` has run. -/
structure Update where
  Address : String
  Servers : List String
  version : String
  once : Bool

/-- Result of a call together with its effect on the files: the final
state and the state after every single write, oldest first. -/
structure Run (α : Type) where
  out : Except String α
  files : Files
  trace : List Files

/-- Go `(*Update).initialize`: the version is the digest of the executable. -/
def Update.initialize (h : Host) (exe : String) (fs : Files) (u : Update) : Update :=
  match fs exe with
  | none => u
  | some f => { u with version := h.md5 f.data }

/-- The call `u.once.Do(u.initialize)`. -/
def Update.doOnce (h : Host) (exe : String) (fs : Files) (u : Update) : Update :=
  if u.once then u else { u.initialize h exe fs with once := true }

/-- Text of the checksum error of `download`. -/
def checksumError (version value : String) : String :=
  "checksum failed: expected '" ++ version ++ "' instead of '" ++ value ++ "'"

/-- Go `(*Update).download`.  The copy into the `.update` file is recorded
byte by byte in the trace. -/
def Update.download (_u : Update) (h : Host) (exe : String) (fs : Files)
    (url version : String) : Run String :=
  match h.get url with
  | .getError e => ⟨.error e, fs, []⟩
  | .gzipError e => ⟨.error e, fs, []⟩
  | .copied written err =>
    match h.createErr with
    | some e => ⟨.error e, fs, []⟩
    | none =>
      let name := exe ++ ".update"
      let mode := match fs name with
        | some f => f.mode
        | none => 0o666
      let steps := (List.range (written.length + 1)).map
        (fun k => fs.set name (some ⟨written.take k, mode⟩))
      let fs1 := fs.set name (some ⟨written, mode⟩)
      match err with
      | some e => ⟨.error e, fs1, steps⟩
      | none =>
        match h.readErr with
        | some e => ⟨.error e, fs1, steps⟩
        | none =>
          let value := h.md5 written
          if value ≠ version then
            ⟨.error (checksumError version value), fs1, steps⟩
          else
            match h.chmodErr with
            | some e => ⟨.error e, fs1, steps⟩
            | none =>
              let fs2 := fs1.set name (some ⟨written, 0o755⟩)
              ⟨.ok name, fs2, steps ++ [fs2]⟩

/-- Go `(*Update).update`.  In the first branch the source evaluates
`fmt.Errorf("already at version %s", version)` and drops the value, so the
named result `err` is still nil at the `return`. -/
def Update.update (u : Update) (h : Host) (exe : String) (fs : Files)
    (url version : String) : Run Unit :=
  if version = u.version then
    ⟨.ok (), fs, []⟩
  else
    let d := u.download h exe fs url version
    match d.out with
    | .error e => ⟨.error e, d.files, d.trace⟩
    | .ok name =>
      match h.renameErr with
      | some e => ⟨.error e, d.files, d.trace⟩
      | none =>
        let fs' := (d.files.set exe (d.files name)).set name none
        ⟨.ok (), fs', d.trace ++ [fs']⟩

/-- An HTTP request to the agent: the URL path and the JSON body, decoded
to `(url, md5)` or the decoder's error. -/
structure Request where
  path : String
  body : Except String (String × String)

/-- The agent's reply; `exited` tells whether `os.Exit(0)` was reached. -/
structure Response where
  status : Nat
  body : String
  exited : Bool
deriving DecidableEq, Repr

/-- Go `(*Update).ServeHTTP`, with the files it leaves behind. -/
def Update.ServeHTTP (u : Update) (h : Host) (exe : String) (fs : Files)
    (r : Request) : Response × Files :=
  let u := u.doOnce h exe fs
  if strings.HasSuffix r.path "/version" then
    (⟨200, u.version, false⟩, fs)
  else if strings.HasSuffix r.path "/new" then
    match r.body with
    | .error e => (⟨400, e ++ "\n", false⟩, fs)
    | .ok (url, md5) =>
      let res := u.update h exe fs url md5
      match res.out with
      | .error e => (⟨503, e ++ "\n", false⟩, res.files)
      | .ok _ => (⟨200, exe ++ " updated to version " ++ md5 ++ "\n", true⟩, res.files)
  else
    (⟨404, "404 page not found\n", false⟩, fs)

/-- A sample environment: the server delivers the archive `[1, 2]`, whose
digest is `"aa"`, and the operating system reports no fault. -/
def sampleHost : Host where
  md5 := fun b => if b = [1, 2] then "aa" else "bb"
  get := fun _ => .copied [1, 2] none
  createErr := none
  readErr := none
  chmodErr := none
  renameErr := none

/-- A sample agent running version `"bb"`. -/
def sampleUpdate : Update := ⟨"agent-1:9000", ["ship:8080"], "bb", true⟩

/-- Sample files: only the executable `"agent"`. -/
def sampleFiles : Files := fun q => if q = "agent" then some ⟨[7], 0o755⟩ else none

end deploy

/-! ## Package `path` -/

namespace path

/-- Split a character list at every occurrence of `sep`. -/
def splitOn (sep : Char) : List Char → List (List Char)
  | [] => [[]]
  | c :: cs =>
    if c = sep then [] :: splitOn sep cs
    else
      match splitOn sep cs with
      | [] => [[c]]
      | h :: t => (c :: h) :: t

/-- One step of `Clean`: the elements kept so far (last one first) and the
next element. -/
def cleanStep (rooted : Bool) (stack : List (List Char)) (c : List Char) :
    List (List Char) :=
  if c = [] ∨ c = ['.'] then stack
  else if c = ['.', '.'] then
    match stack with
    | [] => if rooted then [] else [c]
    | top :: rest => if top = ['.', '.'] then c :: stack else rest
  else c :: stack

/-- Go `path.Clean`. -/
def Clean (p : String) : String :=
  let rooted := p.data.head? = some '/'
  let kept := ((splitOn '/' p.data).foldl (cleanStep rooted) []).reverse
  let body := List.intercalate ['/'] kept
  if rooted then String.mk ('/' :: body)
  else if body = [] then "." else String.mk body

/-- Go `path.Join`. -/
def Join (elems : List String) : String :=
  match elems.filter (fun e => e ≠ "") with
  | [] => ""
  | es => Clean (String.mk (List.intercalate ['/'] (es.map String.data)))

/-- One step of `entryOf`: like `cleanStep`, but a `..` with nothing to
remove leaves the directory and gives up. -/
def entryStep (stack : Option (List (List Char))) (c : List Char) :
    Option (List (List Char)) :=
  match stack with
  | none => none
  | some st =>
    if c = [] ∨ c = ['.'] then some st
    else if c = ['.', '.'] then
      match st with
      | [] => none
      | _ :: rest => some rest
    else some (c :: st)

/-- The directory entry on which `path.Join(dir, name)` lands when that is
a direct entry of `dir` reached without leaving `dir`; `none` when the path
is `dir` itself, lies deeper, or climbs out of `dir`. -/
def entryOf (name : String) : Option String :=
  match (splitOn '/' name.data).foldl entryStep (some []) with
  | some [n] => some (String.mk n)
  | _ => none

/-- Whether `path.Join(dir, name)` is `dir` itself. -/
def isDirItself (name : String) : Bool :=
  (splitOn '/' name.data).foldl entryStep (some []) = some []

/-- Go `path.Base`. -/
def Base (p : String) : String :=
  if p = "" then "."
  else
    let stripped := p.data.reverse.dropWhile (fun c => c = '/')
    let last := (stripped.takeWhile (fun c => c ≠ '/')).reverse
    if last = [] then "/" else String.mk last

end path

/-! ## Package `ship`: requests, storage and the server -/

namespace ship

/-- Lookup in a Go map, modelled as an association list. -/
def mapGet {β : Type} : List (String × β) → String → Option β
  | [], _ => none
  | (k, v) :: rest, key => if k = key then some v else mapGet rest key

/-- Assignment `m[key] = v` in a Go map. -/
def mapSet {β : Type} : List (String × β) → String → β → List (String × β)
  | [], key, v => [(key, v)]
  | (k, x) :: rest, key, v =>
    if k = key then (key, v) :: rest else (k, x) :: mapSet rest key v

/-- Go `ship.Build`; `When` is a timestamp. -/
structure Build where
  Name : String
  Filename : String
  User : String
  When : Nat
  Versions : List (String × String)
deriving DecidableEq, Repr

/-- Go `ship.Deploy`. -/
structure Deploy where
  Name : String
  Filename : String
  User : String
  When : Nat
  Version : String
  Targets : List String
  Logs : List String
deriving DecidableEq, Repr

/-- Go `ship.App`. -/
structure App where
  Name : String
  URL : String
  Version : String
deriving DecidableEq, Repr

/-- The exported (persisted) fields of Go `ship.Builder`. -/
structure Builder where
  Workspace : String
  Root : String
  Name : String
  Build : Build
deriving DecidableEq, Repr

/-- One line of a request log. -/
inductive Record where
  | build (b : Build)
  | deploy (d : Deploy)
deriving DecidableEq, Repr

/-- What a file holds.  JSON documents are represented by the value they
encode. -/
inductive Content where
  /-- Bytes without structure: a build log, a cut-off write. -/
  | raw (bytes : List Nat)
  /-- The gzip archive of a binary. -/
  | gz (binary : List Nat)
  /-- The JSON of a `Builder`. -/
  | manifest (b : Builder)
  /-- The JSON of a `map[string]*App`. -/
  | instances (m : List (String × App))
  /-- Newline-delimited JSON records. -/
  | requests (lines : List Record)
deriving DecidableEq, Repr

/-- A directory entry: a sub-directory or a regular file. -/
inductive Node where
  | dir
  | file (c : Content)
deriving DecidableEq, Repr

/-- The listing of one directory: entry name and node. -/
abbrev Dir := List (String × Node)

/-- The storage root: the directories `builds`, `logs` and `apps`. -/
structure Disk where
  builds : Dir
  logs : Dir
  apps : Dir
deriving DecidableEq, Repr

/-- How a write can fail: before anything is written, or after the file has
been created or truncated. -/
inductive Fault where
  | refused (e : String)
  | truncated (e : String)
deriving DecidableEq, Repr

/-- Write a whole file (`ioutil.WriteFile`, or `os.Create` followed by a
copy): the error, if any, and the directory afterwards. -/
def writeFile (d : Dir) (name : String) (c : Content) (fault : Option Fault) :
    Option String × Dir :=
  match mapGet d name with
  | some .dir => (some ("open " ++ name ++ ": is a directory"), d)
  | _ =>
    match fault with
    | some (.refused e) => (some e, d)
    | some (.truncated e) => (some e, mapSet d name (.file (.raw [])))
    | none => (none, mapSet d name (.file c))

/-- Why a handler stops without an answer: `log.Fatal`, or a path that
leaves the modelled directories. -/
inductive Stop where
  | fatal (msg : String)
  | escaped
deriving DecidableEq, Repr

/-- Result of a step that may stop the server. -/
abbrev Outcome (α : Type) := Except Stop α

/-- The body of the update call sent to an agent. -/
structure UpdateCommand where
  URL : String
  MD5 : String
deriving DecidableEq, Repr

/-! ### The build pipeline: `builder.go` -/

/-- One lowercase hexadecimal digit: `0`..`9` start at code 48, `a`..`f`
at code 97. -/
def hexDigit (n : Nat) : Char :=
  if n % 16 < 10 then Char.ofNat (48 + n % 16) else Char.ofNat (87 + n % 16)

/-- The rendering `fmt.Sprintf("%x", sum)` of a byte array. -/
def hex (sum : List Nat) : String :=
  String.mk ((sum.map (fun b => [hexDigit (b / 16), hexDigit b])).flatten)

/-- What lies outside the builder during one build. -/
structure Toolchain where
  /-- Error of `os.Create` on the log of the workspace. -/
  createLog : Option String
  /-- Error of `cmd.Run` for `git args...` in a directory. -/
  git : String → List String → Option String
  /-- The pins in the order in which their `clone` tasks report. -/
  arrival : List (String × String) → List (String × String)
  /-- Error of `cmd.Run` for `go install`. -/
  goInstall : Option String
  /-- The compiled binary as `checksum` and `save` read it, or the error of
  opening or reading it. -/
  binary : Except String (List Nat)
  /-- The digest `md5.Sum`. -/
  md5sum : List Nat → List Nat
  /-- Error of `os.Open` on the binary in `save`. -/
  saveOpen : Option String
  /-- Fault of `os.Create` and `io.Copy` in `save`. -/
  saveFault : Option Fault
  /-- Fault of `ioutil.WriteFile` on the manifest. -/
  manifestFault : Option Fault
  /-- Error of `os.Rename` on the build log. -/
  renameFault : Option String
  /-- The text of the build log. -/
  log : List Nat

/-- The closure `git` of `clone`: run the command, wrap its error. -/
def gitRun (t : Toolchain) (dir : String) (args : List String) : Option String :=
  match t.git dir args with
  | none => none
  | some e => some ("git " ++ strings.Join args " " ++ "\n" ++ "\n" ++ e)

/-- The closure `clone` of `checkout`: the report it sends on `results`. -/
def clone (t : Toolchain) (workspace name hash : String) : Option String :=
  let dir := path.Join [workspace, "src", name]
  let url := "git@" ++ strings.Replace1 name "/" ":" ++ ".git"
  match gitRun t workspace ["clone", "-q", "--no-checkout", url, path.Join ["src", name]] with
  | some e => some e
  | none => gitRun t dir ["checkout", "-q", hash]

/-- The receive loop of `checkout`: read up to `n` reports and stop at the
first failure.  `none` means the loop waits for a report that never comes. -/
def wait : Nat → List (Option String) → Option (Option String)
  | 0, _ => some none
  | _ + 1, [] => none
  | n + 1, r :: rs =>
    match r with
    | some e => some (some e)
    | none => wait n rs

/-- Go `(*Builder).checkout`. -/
def Builder.checkout (t : Toolchain) (b : Builder) : Option (Option String) :=
  wait b.Build.Versions.length
    ((t.arrival b.Build.Versions).map (fun v => clone t b.Workspace v.1 v.2))

/-- Go `(*Builder).compile`. -/
def Builder.compile (t : Toolchain) (_b : Builder) : Option String :=
  match t.goInstall with
  | none => none
  | some e => some ("go install\n%!(EXTRA string=" ++ e ++ ")")

/-- Go `(*Builder).checksum`: the builder with `Name` set to the digest. -/
def Builder.checksum (t : Toolchain) (b : Builder) : Except String Builder :=
  match t.binary with
  | .error e => .error e
  | .ok bytes => .ok { b with Name := hex (t.md5sum bytes) }

/-- Go `(*Builder).save`, acting on the listing of the directory `b.Root`.
`b.Name` is a hex string, so `<Name>.gz` is a direct entry of that
directory. -/
def Builder.save (t : Toolchain) (b : Builder) (dir : Dir) : Option String × Dir :=
  match t.saveOpen with
  | some e => (some e, dir)
  | none =>
    match t.binary with
    | .error e => (some e, dir)
    | .ok bytes => writeFile dir (b.Name ++ ".gz") (.gz bytes) t.saveFault

/-- The call `os.Rename` that moves the build log to `<Name>.build`. -/
def renameLog (t : Toolchain) (b : Builder) (dir : Dir) : Option String × Dir :=
  match t.renameFault with
  | some e => (some e, dir)
  | none =>
    match mapGet dir (b.Name ++ ".build") with
    | some .dir => (some ("rename " ++ b.Name ++ ".build: file exists"), dir)
    | _ => (none, mapSet dir (b.Name ++ ".build") (.file (.raw t.log)))

/-- The stages of `Make`. -/
inductive Stage where
  | checkout
  | compile
  | checksum
  | save
  | manifest
  | rename
deriving DecidableEq, Repr

/-- What `Make` leaves behind: its result, the builder (with `Name` set by
`checksum`), the listing of `b.Root`, and the stages it entered. -/
structure Made where
  result : Except String String
  builder : Builder
  dir : Dir
  ran : List Stage
deriving DecidableEq, Repr

/-- Go `(*Builder).Make`; `none` when `checkout` waits forever. -/
def Builder.Make (t : Toolchain) (b : Builder) (dir : Dir) : Option Made :=
  match t.createLog with
  | some e => some ⟨.error e, b, dir, []⟩
  | none =>
    match b.checkout t with
    | none => none
    | some (some e) => some ⟨.error e, b, dir, [.checkout]⟩
    | some none =>
      match b.compile t with
      | some e => some ⟨.error e, b, dir, [.checkout, .compile]⟩
      | none =>
        match b.checksum t with
        | .error e => some ⟨.error e, b, dir, [.checkout, .compile, .checksum]⟩
        | .ok b1 =>
          match b1.save t dir with
          | (some e, dir1) =>
            some ⟨.error e, b1, dir1, [.checkout, .compile, .checksum, .save]⟩
          | (none, dir1) =>
            match writeFile dir1 (b1.Name ++ ".json") (.manifest b1) t.manifestFault with
            | (some e, dir2) =>
              some ⟨.error e, b1, dir2, [.checkout, .compile, .checksum, .save, .manifest]⟩
            | (none, dir2) =>
              match renameLog t b1 dir2 with
              | (some e, dir3) =>
                some ⟨.error e, b1, dir3,
                  [.checkout, .compile, .checksum, .save, .manifest, .rename]⟩
              | (none, dir3) =>
                some ⟨.ok b1.Name, b1, dir3,
                  [.checkout, .compile, .checksum, .save, .manifest, .rename]⟩

/-- A toolchain without faults: the binary is `[1, 2]` and its digest is
the single byte `0xab`. -/
def sampleTool : Toolchain where
  createLog := none
  git := fun _ _ => none
  arrival := fun l => l
  goInstall := none
  binary := .ok [1, 2]
  md5sum := fun _ => [171]
  saveOpen := none
  saveFault := none
  manifestFault := none
  renameFault := none
  log := [108, 111, 103]

/-- A build request for `app` with two pins. -/
def sampleBuild : Build :=
  ⟨"acme/app/cmd/app", "app", "amy", 0, [("acme/app", "1111"), ("acme/lib", "2222")]⟩

/-- A builder as `makeBuilder` sets it up. -/
def sampleBuilder : Builder := ⟨"/srv/builds/app-1", "/srv/builds", "", sampleBuild⟩

/-- Go `ship.Requests`; `output` is the name of the file the open handle
refers to. -/
structure Requests where
  Name : String
  Root : String
  Builds : List Build
  Deployments : List Deploy
  output : Option String
deriving DecidableEq, Repr

/-- Go `ship.Server`.  The server is taken after `initialize` has run, so
the `once` guard at the head of the handlers is a no-op. -/
structure Server where
  Host : String
  Root : String
  Builds : String
  Builders : List (String × Builder)
  Requests : List (String × Requests)
  apps : List (String × List (String × App))
deriving DecidableEq, Repr

/-- What lies outside the server while it handles one deploy or
registration request. -/
structure World where
  /-- The value of `time.Now().UTC()`. -/
  now : Nat
  /-- The same instant formatted with the layout `20060102`. -/
  today : String
  /-- Transport error of `http.Post` to `http://<host>/deploy/new`. -/
  post : String → UpdateCommand → Option String
  /-- Error of `os.OpenFile` on a request log. -/
  logFault : Option String
  /-- Fault of `ioutil.WriteFile` on an instance file. -/
  appsFault : Option Fault

/-- Go `(*Server).get`: the history of a program, created on first use. -/
def Server.get (s : Server) (name : String) : ship.Requests × Server :=
  match mapGet s.Requests name with
  | some r => (r, s)
  | none =>
    let r : ship.Requests := ⟨name, path.Join [s.Root, "logs"], [], [], none⟩
    (r, { s with Requests := mapSet s.Requests name r })

/-- The file-name part that `save` derives from the type of the item. -/
def Record.kind : Record → String
  | .build _ => "build"
  | .deploy _ => "deploy"

/-- Go `(*Requests).save`: append the record to the log of the day.  The
log file is entry `name` of the logs directory. -/
def Requests.save (w : World) (r : Requests) (logs : Dir) (item : Record) :
    Outcome (Requests × Dir) :=
  let name := r.Name ++ "-" ++ w.today ++ "." ++ item.kind
  let filename := path.Join [r.Root, name]
  match path.entryOf name with
  | none => .error .escaped
  | some n =>
    if r.output ≠ some filename ∧ w.logFault.isSome then
      .error (.fatal (w.logFault.getD ""))
    else
      match mapGet logs n with
      | some .dir => .error (.fatal ("open " ++ filename ++ ": is a directory"))
      | some (.file (.requests ls)) =>
        .ok ({ r with output := some filename }, mapSet logs n (.file (.requests (ls ++ [item]))))
      | some (.file _) => .error .escaped
      | none =>
        .ok ({ r with output := some filename }, mapSet logs n (.file (.requests [item])))

/-- The update command built by `makeDeploy`. -/
def Server.updateCommand (s : Server) (d : Deploy) : UpdateCommand :=
  ⟨s.Host ++ "/versions/" ++ d.Version ++ ".gz", d.Version⟩

/-- The closure `update` of `makeDeploy`: the outcome line of one call. -/
def update (w : World) (body : UpdateCommand) (host : String) : String :=
  match w.post host body with
  | some e => host ++ " " ++ e
  | none => host ++ " OK"

/-- The selection loop of `makeDeploy`: the hosts on which `update` is
started, one per pass through `n++`, in the order of the passes. -/
def fanOut (targets : List String) (hosts : List (String × App)) : List String :=
  (targets.map (fun item =>
    (hosts.filter (fun h => strings.Contains h.1 item)).map Prod.fst)).flatten

/-- What a request handler wrote to the response and the error it returned. -/
structure Reply where
  written : List String
  err : Option String
deriving DecidableEq, Repr

/-- Go `(*Server).makeDeploy`.  The outcome lines are taken in the order
in which the calls were started. -/
def Server.makeDeploy (w : World) (s : Server) (disk : Disk) (d : Deploy) :
    Outcome (Server × Disk × Reply) :=
  let hosts := (mapGet s.apps d.Filename).getD []
  let ok := (mapGet s.apps d.Filename).isSome
  if ok then
    .ok (s, disk, ⟨[], none⟩)
  else
    let d := { d with When := w.now }
    let body := s.updateCommand d
    let lines := (fanOut d.Targets hosts).map (update w body)
    let (r, s1) := s.get d.Filename
    let d := { d with Logs := lines }
    let r := { r with Deployments := r.Deployments ++ [d] }
    match r.save w disk.logs (.deploy d) with
    | .error e => .error e
    | .ok (r', logs') =>
      .ok ({ s1 with Requests := mapSet s1.Requests d.Filename r' },
        { disk with logs := logs' }, ⟨lines.map (· ++ "\n"), none⟩)

/-- The handlers registered by `Start`. -/
inductive Handler where
  | overview
  | builds
  | requestBuild
  | requestDeploy
  | appInstance
deriving DecidableEq, Repr

/-- The handler that `http.DefaultServeMux` picks for a cleaned URL path:
an exact pattern, else the longest pattern ending in `/` that is a prefix. -/
def route (urlPath : String) : Handler :=
  if urlPath = "/request/build" then .requestBuild
  else if urlPath = "/request/deploy" then .requestDeploy
  else if urlPath = "/app/instance" then .appInstance
  else if strings.HasPrefix urlPath "/builds/" then .builds
  else .overview

/-- The answer to a `GET`: the status and, for a served file, its content.
`none` when the path leads below a sub-directory of `builds`, which the
model does not follow. -/
def Server.serveGet (_s : Server) (disk : Disk) (urlPath : String) :
    Option (Nat × Option Content) :=
  match route urlPath with
  | .overview => if urlPath ≠ "/" then some (404, none) else some (200, none)
  | .builds =>
    if ¬ strings.HasSuffix urlPath ".gz" then some (404, none)
    else
      match path.entryOf (String.mk (urlPath.data.drop 8)) with
      | none => none
      | some n =>
        match mapGet disk.builds n with
        | none => some (404, none)
        | some .dir => some (301, none)
        | some (.file c) => some (200, some c)
  | _ => some (405, none)

/-- The closure that the `/app/instance` handler hands to the feed: upsert
the instance and rewrite the instance file of its program. -/
def Server.register (w : World) (s : Server) (disk : Disk) (item : App) :
    Outcome (Server × Disk) :=
  let instances := (mapGet s.apps item.Name).getD []
  let instances := mapSet instances item.URL item
  let s := { s with apps := mapSet s.apps item.Name instances }
  if path.isDirItself item.Name then
    .error (.fatal ("open " ++ path.Join [s.Root, "apps", item.Name] ++ ": is a directory"))
  else
    match path.entryOf item.Name with
    | none => .error .escaped
    | some n =>
      match writeFile disk.apps n (.instances instances) w.appsFault with
      | (some e, _) => .error (.fatal e)
      | (none, apps') => .ok (s, { disk with apps := apps' })

/-- What lies outside the server while it handles one build request. -/
structure BuildWorld where
  world : World
  /-- The call `ioutil.TempDir(s.Builds, prefix)`: the name of the directory
  it created in `s.Builds`, or its error. -/
  tempDir : Except String String
  tool : Toolchain

/-- Go `(*Server).makeBuilder`, with its queued closures run in place.  The
last component of the result lists the stages `Make` entered.  `none` when
`checkout` waits forever; the step escapes when the answer of `TempDir`
does not name a new direct entry of the builds directory. -/
def Server.makeBuilder (w : BuildWorld) (s : Server) (disk : Disk) (b : Build) :
    Option (Outcome (Server × Disk × Reply × List Stage)) :=
  let b := { b with When := w.world.now }
  match w.tempDir with
  | .error e => some (.ok (s, disk, ⟨[], some e⟩, []))
  | .ok n =>
    if path.entryOf n ≠ some n ∨ (mapGet disk.builds n).isSome then some (.error .escaped)
    else
      let builds1 := mapSet disk.builds n .dir
      let (r, s1) := s.get b.Filename
      let r := { r with Builds := r.Builds ++ [b] }
      match r.save w.world disk.logs (.build b) with
      | .error e => some (.error e)
      | .ok (r', logs') =>
        let s2 := { s1 with Requests := mapSet s1.Requests b.Filename r' }
        let builder : Builder := ⟨path.Join [s.Builds, n], s.Builds, "", b⟩
        match builder.Make w.tool builds1 with
        | none => none
        | some m =>
          match m.result with
          | .error e => some (.ok (s2, ⟨m.dir, logs', disk.apps⟩, ⟨[], some e⟩, m.ran))
          | .ok name =>
            some (.ok ({ s2 with Builders := mapSet s2.Builders name m.builder },
              ⟨m.dir, logs', disk.apps⟩, ⟨[name], none⟩, m.ran))

/-- The name of an entry of the builds directory cut at its first dot, as
`readBuilds` does: `name[:i]` and `name[i+1:]`. -/
def cutAtDot (name : String) : Option (String × String) :=
  match strings.Index name "." with
  | none => none
  | some i => some (String.mk (name.data.take i), String.mk (name.data.drop (i + 1)))

/-- Go `(*Server).readBuilder`.  A file that does not hold the JSON of a
builder counts as a decoding error. -/
def Server.readBuilder (s : Server) (builds : Dir) (name : String) : Outcome Server :=
  match mapGet builds (name ++ ".json") with
  | some (.file (.manifest b)) => .ok { s with Builders := mapSet s.Builders name b }
  | some (.file _) => .error (.fatal ("decoding " ++ name ++ ".json"))
  | _ => .error (.fatal ("open " ++ name ++ ".json"))

/-- The loop of `readBuilds` over the entries of the builds directory;
`builds` is the whole listing. -/
def Server.readEntries (builds : Dir) : Server → List (String × Node) → Outcome Server
  | s, [] => .ok s
  | s, (name, node) :: rest =>
    match node with
    | .dir => Server.readEntries builds s rest
    | .file _ =>
      match cutAtDot name with
      | none => Server.readEntries builds s rest
      | some (stem, ext) =>
        if ext = "json" then
          match s.readBuilder builds stem with
          | .error e => .error e
          | .ok s' => Server.readEntries builds s' rest
        else Server.readEntries builds s rest

/-- Go `(*Server).readBuilds`: sub-directories are removed, every
`<name>.json` is imported.  A map has no order, so the entries are taken in
the order of the listing. -/
def Server.readBuilds (s : Server) (builds : Dir) : Outcome (Server × Dir) :=
  let s := { s with Builds := path.Join [s.Root, "builds"] }
  match Server.readEntries builds s builds with
  | .error e => .error e
  | .ok s' => .ok (s', builds.filter (fun e => e.2 ≠ .dir))

/-- Go `(*Server).readApps`: every regular file of the apps directory is
decoded as the instance map of the program it is named after. -/
def Server.readApps : Server → List (String × Node) → Outcome Server
  | s, [] => .ok s
  | s, (name, node) :: rest =>
    match node with
    | .dir => Server.readApps s rest
    | .file (.instances items) =>
      Server.readApps { s with apps := mapSet s.apps name items } rest
    | .file _ => .error (.fatal ("decoding " ++ name))

/-- A server started on a storage root, as far as the builder index and the
instance registry go: `initialize` without the replay of the request logs. -/
def Server.recover (host root : String) (disk : Disk) : Outcome (Server × Disk) :=
  let s0 : Server := ⟨host, root, "", [], [], []⟩
  match s0.readBuilds disk.builds with
  | .error e => .error e
  | .ok (s1, builds') =>
    match s1.readApps disk.apps with
    | .error e => .error e
    | .ok s2 => .ok (s2, { disk with builds := builds' })

/-- The entry names of a listing are distinct. -/
def distinctNames (d : Dir) : Prop := (d.map Prod.fst).Nodup

/-- The states a server on storage root `root` goes through: it starts by
recovery from a well-formed storage root; then it handles registrations
whose program name is the name of a direct entry of the apps directory, and
build requests that succeed or fail before `Make` writes the manifest. -/
inductive Reach (host root : String) : Server → Disk → Prop where
  | boot (disk0 : Disk) (s : Server) (disk : Disk)
      (hb : distinctNames disk0.builds) (ha : distinctNames disk0.apps)
      (h : Server.recover host root disk0 = .ok (s, disk)) : Reach host root s disk
  | register (w : World) (item : App) (s s' : Server) (disk disk' : Disk)
      (hr : Reach host root s disk)
      (hname : path.entryOf item.Name = some item.Name)
      (h : s.register w disk item = .ok (s', disk')) : Reach host root s' disk'
  | build (w : BuildWorld) (b : Build) (s s' : Server) (disk disk' : Disk)
      (reply : Reply) (ran : List Stage)
      (hr : Reach host root s disk)
      (h : s.makeBuilder w disk b = some (.ok (s', disk', reply, ran)))
      (hran : reply.err = none ∨ Stage.manifest ∉ ran) : Reach host root s' disk'

/-- The map obtained by assigning, entry after entry, the key and value
that `key` reads off an entry. -/
def collect {β : Type} (key : String × Node → Option (String × β)) :
    List (String × Node) → List (String × β) → List (String × β)
  | [], acc => acc
  | e :: rest, acc =>
    match key e with
    | some (k, v) => collect key rest (mapSet acc k v)
    | none => collect key rest acc

/-- The builder that an entry of the builds directory contributes to the
index: a file `<stem>.json` holding a manifest. -/
def buildKey (e : String × Node) : Option (String × Builder) :=
  match e.2 with
  | .file (.manifest b) =>
    match cutAtDot e.1 with
    | some (stem, ext) => if ext = "json" then some (stem, b) else none
    | none => none
  | _ => none

/-- The instance map that an entry of the apps directory contributes to the
registry. -/
def appKey (e : String × Node) : Option (String × List (String × App)) :=
  match e.2 with
  | .file (.instances m) => some (e.1, m)
  | _ => none

/-- The builder index and the registry agree with the storage root: every
`<stem>.json` file of the builds directory holds the manifest indexed under
`stem`, every indexed builder has its manifest file, every file of the apps
directory holds the instance map of the program it is named after, and every
program of the registry has its file. -/
def Consistent (s : Server) (disk : Disk) : Prop :=
  distinctNames disk.builds ∧ distinctNames disk.apps ∧
  (∀ name c stem, (name, Node.file c) ∈ disk.builds → cutAtDot name = some (stem, "json") →
    ∃ b, c = .manifest b ∧ mapGet s.Builders stem = some b) ∧
  (∀ id b, mapGet s.Builders id = some b →
    (id ++ ".json", Node.file (.manifest b)) ∈ disk.builds ∧
    cutAtDot (id ++ ".json") = some (id, "json")) ∧
  (∀ name c, (name, Node.file c) ∈ disk.apps →
    ∃ m, c = .instances m ∧ mapGet s.apps name = some m) ∧
  (∀ p m, mapGet s.apps p = some m → (p, Node.file (.instances m)) ∈ disk.apps)

/-- Three registered instances of the program `app`. -/
def sampleApps : List (String × App) :=
  [("web-1:9000", ⟨"app", "web-1:9000", "old"⟩),
   ("web-2:9000", ⟨"app", "web-2:9000", "old"⟩),
   ("web-3:9000", ⟨"app", "web-3:9000", "old"⟩)]

/-- A server that knows the three instances of `app`. -/
def sampleServer : Server :=
  ⟨"http://ship:8080", "/srv", "/srv/builds", [], [], [("app", sampleApps)]⟩

/-- A storage root holding the artifact of build `abc`. -/
def sampleDisk : Disk := ⟨[("abc.gz", .file (.gz [1, 2]))], [], []⟩

/-- A world in which `web-2:9000` cannot be reached. -/
def sampleWorld : World where
  now := 1700000000
  today := "20231114"
  post := fun host _ => if host = "web-2:9000" then some "connection refused" else none
  logFault := none
  appsFault := none

/-- A request to deploy build `abc` of `app` on every host matching `web`. -/
def sampleDeploy : Deploy := ⟨"cmd/app", "app", "amy", 0, "abc", ["web"], []⟩

/-! ### The client side: `project.go` and `build.go` -/

/-- The fields of Go `build.Package` that the sources read. -/
structure Package where
  ImportPath : String
  Dir : String
  SrcRoot : String
  Goroot : Bool
  /-- The package name; a command has the name `main`. -/
  Name : String
  Imports : List String
  TestImports : List String
deriving DecidableEq, Repr

/-- What lies outside the client: the `go/build` importer, the `git`
program, the current user, the build server, and the order in which a
`range` over the dependency map visits its entries. -/
structure GoEnv where
  /-- The call `build.Import(name, wd, 0)`. -/
  Import : String → String → Except String Package
  /-- Run `git args...` in a directory: standard output, or the error of
  `cmd.Output`. -/
  git : String → List String → Except String String
  /-- The name of `user.Current()`. -/
  currentUser : Except String String
  /-- The call `Build.Send(url)`: the response body. -/
  send : String → Build → Except String String
  /-- The order of `range p.dependencies`. -/
  rangeOrder : List (String × Package) → List (String × Package)

/-- Go `ship.Project`. -/
structure Project where
  Name : String
  Filename : String
  dependencies : List (String × Package)
  repositories : List (String × String)
deriving DecidableEq, Repr

/-- The closure `run` of `Dependencies` and of `commit`. -/
def run (env : GoEnv) (dir : String) (args : List String) : Except String String :=
  match env.git dir args with
  | .ok out => .ok out
  | .error e => .error ("git " ++ strings.Join args " " ++ "\n" ++ e)

/-- Go `NewProject`. -/
def NewProject (env : GoEnv) (name wd : String) : Except String Project :=
  match env.Import name wd with
  | .error e => .error e
  | .ok pkg =>
    if pkg.Name ≠ "main" then .error "project must be a command"
    else
      let src := pkg.SrcRoot ++ "/"
      if ¬ strings.HasPrefix pkg.Dir src then .error "unable to figure out project name"
      else
        let dir := strings.TrimPrefix pkg.Dir src
        .ok ⟨dir, path.Base dir, [], []⟩

/-- The loop of `include` over the imports of a package; `recurse` is the
recursive call. -/
def includeLoop (recurse : Project → String → Option (Except String Project))
    (goroot : Bool) : Project → List String → Option (Except String Project)
  | p, [] => some (.ok p)
  | p, item :: rest =>
    if (mapGet p.dependencies item).isSome then includeLoop recurse goroot p rest
    else if goroot then includeLoop recurse goroot p rest
    else
      match recurse p item with
      | none => none
      | some (.error e) => some (.error e)
      | some (.ok p') => includeLoop recurse goroot p' rest

/-- Go `(*Project).include`, with a bound on the depth of the recursion;
`none` means the bound was reached. -/
def Project.include (env : GoEnv) : Nat → Project → String → Option (Except String Project)
  | 0, _, _ => none
  | fuel + 1, p, name =>
    match env.Import name "" with
    | .error e => some (.error e)
    | .ok pkg =>
      let p := { p with dependencies := mapSet p.dependencies pkg.ImportPath pkg }
      includeLoop (Project.include env fuel) pkg.Goroot p (pkg.Imports ++ pkg.TestImports)

/-- The arguments of the status query of `commit`. -/
def statusArgs : List String := ["status", "--porcelain", "--untracked-files=no"]

/-- Text of the error of `commit` for a dirty repository. -/
def dirtyError (repo : String) : String := "repository '" ++ repo ++ "' is dirty"

/-- Go `(*Project).commit`: the result and the git commands that were run,
in order. -/
def Project.commit (env : GoEnv) (_name repo : String) :
    Except String String × List (List String) :=
  match run env repo statusArgs with
  | .error e => (.error e, [statusArgs])
  | .ok status =>
    if status ≠ "" then (.error (dirtyError repo), [statusArgs])
    else
      match run env repo ["rev-list", "@{u}..HEAD"] with
      | .error e => (.error e, [statusArgs, ["rev-list", "@{u}..HEAD"]])
      | .ok ahead =>
        let pushed : Except String (List (List String)) :=
          if ahead ≠ "" then
            match run env repo ["push", "--ff-only"] with
            | .error e => .error e
            | .ok _ => .ok [["push", "--ff-only"]]
          else .ok []
        match pushed with
        | .error e =>
          (.error e, [statusArgs, ["rev-list", "@{u}..HEAD"], ["push", "--ff-only"]])
        | .ok cmds =>
          let log := [statusArgs, ["rev-list", "@{u}..HEAD"]] ++ cmds ++ [["rev-parse", "HEAD"]]
          match run env repo ["rev-parse", "HEAD"] with
          | .error e => (.error e, log)
          | .ok hash => (.ok (strings.TrimSpace hash), log)

/-- The key under which `Dependencies` pins the repository of a package,
and the directory of that repository. -/
def repoOf (env : GoEnv) (pkg : Package) : Except String (String × String) :=
  match run env pkg.Dir ["rev-parse", "--show-toplevel"] with
  | .error e => .error e
  | .ok output =>
    let dir := strings.TrimSpace output
    .ok (strings.TrimPrefix dir (pkg.SrcRoot ++ "/"), dir)

/-- The second loop of `Dependencies`, over the packages in the order of
the `range`: the pins collected, or the first error. -/
def pinLoop (env : GoEnv) :
    List (String × String) → List Package → Except String (List (String × String))
  | repos, [] => .ok repos
  | repos, pkg :: rest =>
    if pkg.Goroot then pinLoop env repos rest
    else
      match repoOf env pkg with
      | .error e => .error e
      | .ok (git, dir) =>
        if (mapGet repos git).isSome then pinLoop env repos rest
        else
          match (Project.commit env git dir).1 with
          | .error e => .error e
          | .ok hash => pinLoop env (mapSet repos git hash) rest

/-- Go `(*Project).Dependencies`; `none` means the recursion bound of
`include` was reached. -/
def Project.Dependencies (env : GoEnv) (fuel : Nat) (p : Project) :
    Option (Except String (List (String × String))) :=
  match p.include env fuel p.Name with
  | none => none
  | some (.error e) => some (.error e)
  | some (.ok p1) =>
    some (pinLoop env p1.repositories ((env.rangeOrder p1.dependencies).map Prod.snd))

/-- Go `NewBuild`. -/
def NewBuild (env : GoEnv) (fuel : Nat) (command wd : String) :
    Option (Except String Build) :=
  match NewProject env command wd with
  | .error e => some (.error e)
  | .ok p =>
    match p.Dependencies env fuel with
    | none => none
    | some (.error e) => some (.error e)
    | some (.ok d) =>
      match env.currentUser with
      | .error e => some (.error e)
      | .ok u => some (.ok ⟨p.Name, p.Filename, u, 0, d⟩)

/-- Go `RequestBuild`: the result and the build requests that were sent to
the server. -/
def RequestBuild (env : GoEnv) (fuel : Nat) (url command wd : String) :
    Option (Except String String × List Build) :=
  match NewBuild env fuel command wd with
  | none => none
  | some (.error e) => some (.error e, [])
  | some (.ok b) =>
    match env.send url b with
    | .error e => some (.error e, [b])
    | .ok output => some (.ok (strings.TrimSpace output), [b])

/-- The importer of the sample workspace: the command `acme/app/cmd/app`
imports `fmt` and `acme/lib`. -/
def sampleImport (name _wd : String) : Except String Package :=
  if name = "acme/app/cmd/app" then
    .ok ⟨"acme/app/cmd/app", "/go/src/acme/app/cmd/app", "/go/src", false, "main",
      ["fmt", "acme/lib"], []⟩
  else if name = "acme/lib" then
    .ok ⟨"acme/lib", "/go/src/acme/lib", "/go/src", false, "lib", ["fmt"], []⟩
  else if name = "fmt" then
    .ok ⟨"fmt", "/usr/go/src/fmt", "/usr/go/src", true, "fmt", [], []⟩
  else .error ("cannot find package " ++ name)

/-- The `git` of the sample workspace.  The repository `acme/lib` holds an
untracked file; `tracked` tells whether it also has a modified tracked file. -/
def sampleGit (tracked : Bool) (dir : String) (args : List String) : Except String String :=
  if args = ["rev-parse", "--show-toplevel"] then
    if dir = "/go/src/acme/app/cmd/app" then .ok "/go/src/acme/app\n"
    else .ok (dir ++ "\n")
  else if args = ["status", "--porcelain"] then
    if dir = "/go/src/acme/lib" then
      .ok (if tracked then " M lib.go\n?? notes.txt\n" else "?? notes.txt\n")
    else .ok ""
  else if args = statusArgs then
    if dir = "/go/src/acme/lib" ∧ tracked then .ok " M lib.go\n" else .ok ""
  else if args = ["rev-list", "@{u}..HEAD"] then .ok ""
  else if args = ["rev-parse", "HEAD"] then
    if dir = "/go/src/acme/lib" then .ok "2222\n" else .ok "1111\n"
  else .error "exit status 1"

/-- The sample client environment. -/
def sampleGo (tracked : Bool) : GoEnv where
  Import := sampleImport
  git := sampleGit tracked
  currentUser := .ok "amy"
  send := fun _ _ => .ok "abc\n"
  rangeOrder := fun l => l

/-- The package `acme/lib` of the sample workspace. -/
def samplePackage : Package :=
  ⟨"acme/lib", "/go/src/acme/lib", "/go/src", false, "lib", ["fmt"], []⟩

/-- The command package of the sample workspace. -/
def sampleCommand : Package :=
  ⟨"acme/app/cmd/app", "/go/src/acme/app/cmd/app", "/go/src", false, "main",
    ["fmt", "acme/lib"], []⟩

/-- The project of the sample workspace once `include` has run. -/
def sampleProject : Project :=
  ⟨"acme/app/cmd/app", "app",
    [("acme/app/cmd/app", sampleCommand),
     ("fmt", ⟨"fmt", "/usr/go/src/fmt", "/usr/go/src", true, "fmt", [], []⟩),
     ("acme/lib", samplePackage)], []⟩

/-- A build request handled without faults in the workspace `app-1`. -/
def sampleBuildWorld : BuildWorld := ⟨sampleWorld, .ok "app-1", sampleTool⟩

/-! ### Which task touches the shared state -/

/-- The task that runs a statement: the goroutine of the HTTP handler, or
the single goroutine that runs the closures sent on `s.feed`. -/
inductive Task where
  | handler
  | consumer
deriving DecidableEq, Repr

/-- The shared in-memory state of the server. -/
inductive Shared where
  | Builders
  | Requests
  | apps
deriving DecidableEq, Repr

/-- One read or write of the shared state. -/
structure Access where
  task : Task
  state : Shared
  write : Bool
deriving DecidableEq, Repr

/-- The accesses of `makeDeploy`, in program order: the lookup
`s.apps[d.Filename]` stands in the body of the function, which the handler
runs; `s.get`, the append to `r.Deployments` and `r.save` stand in the
closure sent on `s.feed`. -/
def Server.makeDeployAccesses (s : Server) (d : Deploy) : List Access :=
  ⟨.handler, .apps, false⟩ ::
    (if (mapGet s.apps d.Filename).isSome then []
     else [⟨.consumer, .Requests, false⟩, ⟨.consumer, .Requests, true⟩])

/-- The accesses of `makeBuilder`: both closures are sent on `s.feed`, the
first once the workspace exists, the second only when `Make` succeeded. -/
def Server.makeBuilderAccesses (workspace made : Bool) : List Access :=
  if workspace then
    [⟨.consumer, .Requests, false⟩, ⟨.consumer, .Requests, true⟩] ++
      (if made then [⟨.consumer, .Builders, true⟩] else [])
  else []

/-- The accesses of the `/app/instance` handler: one closure sent on
`s.feed`. -/
def Server.registerAccesses : List Access :=
  [⟨.consumer, .apps, false⟩, ⟨.consumer, .apps, true⟩]

/-- The accesses of `Write`: the template is executed on the server, whose
exported fields it can read, inside a closure sent on `s.feed`. -/
def Server.writeAccesses : List Access :=
  [⟨.consumer, .Builders, false⟩, ⟨.consumer, .Requests, false⟩]

/-! ### Replay of the request logs -/

/-- Order of two names as byte strings, the order of `ioutil.ReadDir` (for
UTF-8 it is the order of the code points). -/
def charsLE : List Char → List Char → Bool
  | [], _ => true
  | _ :: _, [] => false
  | c :: cs, d :: ds =>
    if c.toNat < d.toNat then true else if c = d then charsLE cs ds else false

/-- Insert an entry into a listing sorted by name. -/
def insertEntry (e : String × Node) : List (String × Node) → List (String × Node)
  | [] => [e]
  | x :: xs => if charsLE e.1.data x.1.data then e :: x :: xs else x :: insertEntry e xs

/-- Go `ioutil.ReadDir`: the entries of a directory sorted by name. -/
def ReadDir (d : Dir) : List (String × Node) :=
  d.foldr insertEntry []

/-- A log line decoded by `json.Unmarshal` into a `Build`: of the keys of a
deploy record only `package`, `file`, `by` and `when` are keys of a build. -/
def Record.asBuild : Record → Build
  | .build b => b
  | .deploy d => ⟨d.Name, d.Filename, d.User, d.When, []⟩

/-- A log line decoded by `json.Unmarshal` into a `Deploy`. -/
def Record.asDeploy : Record → Deploy
  | .deploy d => d
  | .build b => ⟨b.Name, b.Filename, b.User, b.When, "", [], []⟩

/-- The lines that `bufio.Scanner` finds in a file, as JSON values: an
empty file has none, the empty instance map is the line `{}`, and a file
that holds neither is a decoding error. -/
def scanLines (c : Content) : Outcome (List Record) :=
  match c with
  | .requests ls => .ok ls
  | .raw [] => .ok []
  | .instances [] => .ok [.build ⟨"", "", "", 0, []⟩]
  | _ => .error (.fatal "failed to parse")

/-- The body of the `build` loop of `readRequests`. -/
def Server.appendBuild (s : Server) (b : Build) : Server :=
  let (r, s1) := s.get b.Filename
  { s1 with Requests := (mapSet s1.Requests b.Filename { r with Builds := r.Builds ++ [b] }) }

/-- The body of the `deploy` loop of `readRequests`. -/
def Server.appendDeploy (s : Server) (d : Deploy) : Server :=
  let (r, s1) := s.get d.Filename
  { s1 with Requests := (mapSet s1.Requests d.Filename
      { r with Deployments := r.Deployments ++ [d] }) }

/-- The loop of `readRequests` over the sorted entries of the logs
directory. -/
def Server.readLogs : Server → List (String × Node) → Outcome Server
  | s, [] => .ok s
  | s, (name, node) :: rest =>
    match node with
    | .dir => Server.readLogs s rest
    | .file c =>
      match cutAtDot name with
      | none => Server.readLogs s rest
      | some (_, ext) =>
        if ext = "build" then
          match scanLines c with
          | .error e => .error e
          | .ok ls =>
            Server.readLogs (ls.foldl (fun s l => s.appendBuild l.asBuild) s) rest
        else if ext = "deploy" then
          match scanLines c with
          | .error e => .error e
          | .ok ls =>
            Server.readLogs (ls.foldl (fun s l => s.appendDeploy l.asDeploy) s) rest
        else Server.readLogs s rest

/-- Go `(*Server).readRequests`. -/
def Server.readRequests (s : Server) (logs : Dir) : Outcome Server :=
  Server.readLogs s (ReadDir logs)

/-- The history of a program: its build and its deploy records. -/
def Server.history (s : Server) (name : String) : List Build × List Deploy :=
  match mapGet s.Requests name with
  | some r => (r.Builds, r.Deployments)
  | none => ([], [])

/-- A server on `/srv` before any request. -/
def freshServer : Server := ⟨"http://ship:8080", "/srv", "/srv/builds", [], [], []⟩

/-! ### The import graph -/

/-- The package `name` is reached from `start` without going through the
imports of a standard-library package: the walk of `include`. -/
inductive Walked (env : GoEnv) (start : String) : String → Prop where
  | refl : Walked env start start
  | step (x item : String) (pkg : Package) (h : Walked env start x)
      (hx : env.Import x "" = .ok pkg) (hg : pkg.Goroot = false)
      (hi : item ∈ pkg.Imports ++ pkg.TestImports) : Walked env start item

/-- Every entry of the dependency map is a package of the graph, filed
under its import path. -/
def Good (env : GoEnv) (names : List String) (p : Project) : Prop :=
  ∀ k pkg, (k, pkg) ∈ p.dependencies → env.Import k "" = .ok pkg ∧ k ∈ names

/-- What a run of `include` (or of its loop) from `p` to `p'` with the
calls `v` has done: the entries of `p` are kept, every new package that is
not of the standard library has all its imports in the map, every new key
is walked to from one of `targets`, and the calls are distinct names that
were not in the map before and are in it afterwards. -/
structure Post (env : GoEnv) (names : List String) (p p' : Project) (v targets : List String) :
    Prop where
  keep : ∀ k pkg, mapGet p.dependencies k = some pkg → mapGet p'.dependencies k = some pkg
  good : Good env names p'
  closed : ∀ k pkg, mapGet p'.dependencies k = some pkg → mapGet p.dependencies k = none →
    pkg.Goroot = false → ∀ item ∈ pkg.Imports ++ pkg.TestImports,
      (mapGet p'.dependencies item).isSome = true
  sound : ∀ k, (mapGet p'.dependencies k).isSome = true →
    (mapGet p.dependencies k).isSome = true ∨ ∃ t ∈ targets, Walked env t k
  calls : v.Nodup ∧ ∀ x ∈ v, mapGet p.dependencies x = none ∧
    (mapGet p'.dependencies x).isSome = true

end ship

/-! ## Theorems -/

namespace deploy

theorem update_path_ne (exe : String) : exe ++ ".update" ≠ exe := by
  intro h
  have hl := congrArg String.length h
  simp [String.length_append] at hl
  revert hl
  decide

theorem new_not_version (p : String) (h : strings.HasSuffix p "/new" = true) :
    strings.HasSuffix p "/version" = false := by
  unfold strings.HasSuffix at *
  generalize p.data.reverse = l at *
  have e1 : "/new".data.reverse = ['w', 'e', 'n', '/'] := by decide
  have e2 : "/version".data.reverse = ['n', 'o', 'i', 's', 'r', 'e', 'v', '/'] := by decide
  rw [e1] at h
  rw [e2]
  cases l with
  | nil => simp at h
  | cons c cs =>
    simp only [List.isPrefixOf, Bool.and_eq_true, beq_iff_eq] at h
    simp [List.isPrefixOf, ← h.1]

theorem set_other (fs : Files) (p q : String) (f : Option File) (h : q ≠ p) :
    fs.set p f q = fs q := by
  simp [Files.set, h]

theorem mem_steps_other (fs : Files) (exe q : String) (w : Bytes) (m n : Nat) (s : Files)
    (hq : q ≠ exe ++ ".update")
    (hs : s ∈ (List.range n).map
      (fun k => fs.set (exe ++ ".update") (some ⟨w.take k, m⟩))) :
    s q = fs q := by
  rcases List.mem_map.1 hs with ⟨k, _, rfl⟩
  exact set_other fs _ q _ hq

theorem download_trace_other (u : Update) (h : Host) (exe : String) (fs : Files)
    (url version q : String) (hq : q ≠ exe ++ ".update") :
    ∀ s ∈ (u.download h exe fs url version).trace, s q = fs q := by
  intro s hs
  unfold Update.download at hs
  cases hg : h.get url with
  | getError e => simp [hg] at hs
  | gzipError e => simp [hg] at hs
  | copied w err =>
    cases hc : h.createErr with
    | some e => simp [hg, hc] at hs
    | none =>
      simp only [hg, hc] at hs
      cases err with
      | some e => exact mem_steps_other fs exe q w _ _ s hq hs
      | none =>
        simp only at hs
        cases hr : h.readErr with
        | some e => rw [hr] at hs; exact mem_steps_other fs exe q w _ _ s hq hs
        | none =>
          simp only [hr] at hs
          by_cases hv : h.md5 w = version
          · simp only [hv, ne_eq, not_true_eq_false, if_false] at hs
            cases hch : h.chmodErr with
            | some e => rw [hch] at hs; exact mem_steps_other fs exe q w _ _ s hq hs
            | none =>
              simp only [hch] at hs
              rcases List.mem_append.1 hs with h1 | h1
              · exact mem_steps_other fs exe q w _ _ s hq h1
              · rw [List.mem_singleton.1 h1]
                simp [Files.set, hq]
          · simp only [ne_eq, hv, not_false_eq_true, if_true] at hs
            exact mem_steps_other fs exe q w _ _ s hq hs

theorem download_files_other (u : Update) (h : Host) (exe : String) (fs : Files)
    (url version q : String) (hq : q ≠ exe ++ ".update") :
    (u.download h exe fs url version).files q = fs q := by
  unfold Update.download
  cases h.get url with
  | getError e => rfl
  | gzipError e => rfl
  | copied w err =>
    cases h.createErr with
    | some e => rfl
    | none =>
      cases err with
      | some e => simp [Files.set, hq]
      | none =>
        cases h.readErr with
        | some e => simp [Files.set, hq]
        | none =>
          by_cases hv : h.md5 w = version
          · cases h.chmodErr <;> simp [hv, Files.set, hq]
          · simp [hv, Files.set, hq]

theorem download_files_exe (u : Update) (h : Host) (exe : String) (fs : Files)
    (url version : String) :
    (u.download h exe fs url version).files exe = fs exe :=
  download_files_other u h exe fs url version exe (fun e => update_path_ne exe e.symm)

theorem download_trace_exe (u : Update) (h : Host) (exe : String) (fs : Files)
    (url version : String) :
    ∀ s ∈ (u.download h exe fs url version).trace, s exe = fs exe :=
  download_trace_other u h exe fs url version exe (fun e => update_path_ne exe e.symm)

theorem update_mismatch_out (u : Update) (h : Host) (exe : String) (fs : Files)
    (url version : String) (written : Bytes)
    (hget : h.get url = .copied written none)
    (hcreate : h.createErr = none) (hread : h.readErr = none)
    (hsum : h.md5 written ≠ version) (hver : version ≠ u.version) :
    (u.update h exe fs url version).out
      = .error (checksumError version (h.md5 written)) := by
  simp [Update.update, Update.download, hget, hcreate, hread, hsum, hver]

/-- C2: when the archive that `update` downloads and decompresses has a
digest different from the expected one, the file at the executable's path
is the same after the call and after every single write of the call; the
call (which reaches the download because the expected hash is not the
current version) returns the checksum error, and the `/new` handler then
answers 503 with that error, does not exit, and leaves the executable as
it was. -/
theorem update_checksum_mismatch_keeps_executable (u : Update) (h : Host)
    (exe : String) (fs : Files) (url version : String) (written : Bytes)
    (hget : h.get url = .copied written none)
    (hcreate : h.createErr = none) (hread : h.readErr = none)
    (hsum : h.md5 written ≠ version) :
    ((u.update h exe fs url version).files exe = fs exe ∧
      ∀ s ∈ (u.update h exe fs url version).trace, s exe = fs exe) ∧
    (version ≠ u.version →
      (u.update h exe fs url version).out
        = .error (checksumError version (h.md5 written))) ∧
    (∀ path : String, strings.HasSuffix path "/new" = true →
      version ≠ (u.doOnce h exe fs).version →
      (u.ServeHTTP h exe fs ⟨path, .ok (url, version)⟩).1
          = ⟨503, checksumError version (h.md5 written) ++ "\n", false⟩ ∧
        (u.ServeHTTP h exe fs ⟨path, .ok (url, version)⟩).2 exe = fs exe) := by
  have hframe : ∀ v : Update, (v.update h exe fs url version).files exe = fs exe ∧
      ∀ s ∈ (v.update h exe fs url version).trace, s exe = fs exe := by
    intro v
    by_cases hv : version = v.version
    · simp [Update.update, hv]
    · have hd : (v.download h exe fs url version).out
          = .error (checksumError version (h.md5 written)) := by
        simp [Update.download, hget, hcreate, hread, hsum]
      simp only [Update.update, hv, if_false, hd]
      exact ⟨download_files_exe v h exe fs url version,
        download_trace_exe v h exe fs url version⟩
  refine ⟨hframe u, update_mismatch_out u h exe fs url version written hget hcreate hread hsum, ?_⟩
  intro path hnew hver
  have hv := new_not_version path hnew
  have ho := update_mismatch_out (u.doOnce h exe fs) h exe fs url version written
    hget hcreate hread hsum hver
  simp only [Update.ServeHTTP, hv, hnew, if_true, ho]
  exact ⟨by simp, (hframe (u.doOnce h exe fs)).1⟩

/-- C3: when the expected hash differs from the current version, the
archive decompresses to bytes with exactly the expected hash and the
operating system reports no fault, `update` succeeds and the file at the
executable's path then has the expected hash.  The recorded writes are a
sequence in which only the `.update` file differs from the initial files,
followed by one last state, the result of the rename: so at every step the
executable's path holds the old file or the complete new one. -/
theorem update_installs_expected_version (u : Update) (h : Host)
    (exe : String) (fs : Files) (url version : String) (written : Bytes)
    (hver : version ≠ u.version)
    (hget : h.get url = .copied written none)
    (hsum : h.md5 written = version)
    (hcreate : h.createErr = none) (hread : h.readErr = none)
    (hchmod : h.chmodErr = none) (hrename : h.renameErr = none) :
    (u.update h exe fs url version).out = .ok () ∧
    (u.update h exe fs url version).files exe = some ⟨written, 0o755⟩ ∧
    ((u.update h exe fs url version).files exe).map (fun f => h.md5 f.data)
      = some version ∧
    ∃ pre : List Files,
      (u.update h exe fs url version).trace
        = pre ++ [(u.update h exe fs url version).files] ∧
      ∀ s ∈ pre, ∀ q : String, q ≠ exe ++ ".update" → s q = fs q := by
  have hne : exe ≠ exe ++ ".update" := fun e => update_path_ne exe e.symm
  have hd : (u.download h exe fs url version).out = .ok (exe ++ ".update") := by
    simp [Update.download, hget, hcreate, hread, hsum, hchmod]
  have hf : (u.download h exe fs url version).files (exe ++ ".update")
      = some ⟨written, 0o755⟩ := by
    simp [Update.download, hget, hcreate, hread, hsum, hchmod, Files.set]
  have hfiles : (u.update h exe fs url version).files exe = some ⟨written, 0o755⟩ := by
    simp only [Update.update, hver, if_false, hd, hrename]
    simp [Files.set, hne, hf]
  refine ⟨?_, hfiles, ?_, (u.download h exe fs url version).trace, ?_, ?_⟩
  · simp [Update.update, hver, hd, hrename]
  · rw [hfiles]; simp [hsum]
  · simp [Update.update, hver, hd, hrename]
  · intro s hs q hq
    exact download_trace_other u h exe fs url version q hq s hs

/-- C4 (what the code does): a command whose expected hash equals the
agent's version makes `update` return without an error and without any
write, and the `/new` handler answers 200 "updated to version" and exits. -/
theorem update_same_version_returns_nil (u : Update) (h : Host) (exe : String)
    (fs : Files) (url : String) :
    (u.update h exe fs url u.version).out = .ok () ∧
    (u.update h exe fs url u.version).trace = [] ∧
    (u.ServeHTTP h exe fs
        ⟨"/deploy/new", .ok (url, (u.doOnce h exe fs).version)⟩).1
      = ⟨200, exe ++ " updated to version " ++ (u.doOnce h exe fs).version ++ "\n",
          true⟩ := by
  have h1 : strings.HasSuffix "/deploy/new" "/new" = true := by decide
  have h2 : strings.HasSuffix "/deploy/new" "/version" = false := by decide
  refine ⟨by simp [Update.update], by simp [Update.update], ?_⟩
  simp [Update.ServeHTTP, h1, h2, Update.update]

theorem update_checksum_mismatch_keeps_executable_witness :
    sampleHost.md5 [1, 2] ≠ "zz" ∧
    ((sampleUpdate.update sampleHost "agent" sampleFiles "http://ship/builds/zz.gz" "zz").files
        "agent" = sampleFiles "agent") :=
  ⟨by decide,
    (update_checksum_mismatch_keeps_executable sampleUpdate sampleHost "agent" sampleFiles
      "http://ship/builds/zz.gz" "zz" [1, 2] rfl rfl rfl (by decide)).1.1⟩

theorem update_installs_expected_version_witness :
    "aa" ≠ sampleUpdate.version ∧ sampleHost.md5 [1, 2] = "aa" ∧
    (sampleUpdate.update sampleHost "agent" sampleFiles "http://ship/builds/aa.gz" "aa").files
        "agent" = some ⟨[1, 2], 0o755⟩ :=
  ⟨by decide, by decide,
    (update_installs_expected_version sampleUpdate sampleHost "agent" sampleFiles
      "http://ship/builds/aa.gz" "aa" [1, 2] (by decide) rfl (by decide) rfl rfl rfl rfl).2.1⟩

end deploy

namespace ship

/-- C1 (what the code does): for a program that has registered instances
the guard `if ok { return }` ends `makeDeploy` at once: no update call is
made, nothing is written to the response, no error is returned, and the
server and its storage are unchanged. -/
theorem makeDeploy_registered_writes_nothing (w : World) (s : Server) (disk : Disk)
    (d : Deploy) (hosts : List (String × App))
    (h : mapGet s.apps d.Filename = some hosts) :
    s.makeDeploy w disk d = .ok (s, disk, ⟨[], none⟩) := by
  simp [Server.makeDeploy, h]

theorem makeDeploy_registered_writes_nothing_witness :
    fanOut sampleDeploy.Targets sampleApps = ["web-1:9000", "web-2:9000", "web-3:9000"] ∧
    sampleServer.makeDeploy sampleWorld sampleDisk sampleDeploy
      = .ok (sampleServer, sampleDisk, ⟨[], none⟩) :=
  ⟨by decide,
    makeDeploy_registered_writes_nothing sampleWorld sampleServer sampleDisk sampleDeploy
      sampleApps (by decide)⟩

/-- C5 (what the code does): the update command carries the expected hash
`v`, but its URL is `<Host>/versions/<v>.gz`.  No handler is registered
for that path: the request falls to the overview handler, which answers 404,
while the artifact written by `Builder.save` is served under
`/builds/<v>.gz`. -/
theorem updateCommand_addresses_versions :
    (∀ (s : Server) (d : Deploy),
      s.updateCommand d = ⟨s.Host ++ "/versions/" ++ d.Version ++ ".gz", d.Version⟩) ∧
    sampleServer.updateCommand sampleDeploy = ⟨"http://ship:8080/versions/abc.gz", "abc"⟩ ∧
    (sampleServer.updateCommand sampleDeploy).URL ≠ "http://ship:8080/builds/abc.gz" ∧
    route "/versions/abc.gz" = .overview ∧
    sampleServer.serveGet sampleDisk "/versions/abc.gz" = some (404, none) ∧
    sampleServer.serveGet sampleDisk "/builds/abc.gz" = some (200, some (.gz [1, 2])) := by
  refine ⟨fun _ _ => rfl, by decide, by decide, by decide, by decide, by decide⟩

/-! ### Maps -/

theorem mapGet_mapSet_self {β : Type} (m : List (String × β)) (k : String) (v : β) :
    mapGet (mapSet m k v) k = some v := by
  induction m with
  | nil => simp [mapSet, mapGet]
  | cons a rest ih =>
    obtain ⟨k', x⟩ := a
    by_cases h : k' = k
    · simp [mapSet, mapGet, h]
    · simp [mapSet, mapGet, h, ih]

theorem mapGet_mapSet_ne {β : Type} (m : List (String × β)) (k key : String) (v : β)
    (h : k ≠ key) : mapGet (mapSet m key v) k = mapGet m k := by
  induction m with
  | nil => simp [mapSet, mapGet, Ne.symm h]
  | cons a rest ih =>
    obtain ⟨k', x⟩ := a
    by_cases h' : k' = key
    · subst h'
      simp [mapSet, mapGet, Ne.symm h]
    · by_cases h'' : k' = k
      · subst h''
        simp [mapSet, mapGet, h']
      · simp [mapSet, mapGet, h', h'', ih]

theorem mem_keys_mapSet {β : Type} (m : List (String × β)) (k x : String) (v : β) :
    x ∈ (mapSet m k v).map Prod.fst ↔ x = k ∨ x ∈ m.map Prod.fst := by
  induction m with
  | nil => simp [mapSet]
  | cons a rest ih =>
    obtain ⟨k', y⟩ := a
    by_cases h : k' = k
    · subst h
      simp [mapSet]
    · simp only [mapSet, h, if_false, List.map_cons, List.mem_cons, ih]
      tauto

theorem mapSet_nodup {β : Type} (m : List (String × β)) (k : String) (v : β)
    (h : (m.map Prod.fst).Nodup) : ((mapSet m k v).map Prod.fst).Nodup := by
  induction m with
  | nil => simp [mapSet]
  | cons a rest ih =>
    obtain ⟨k', y⟩ := a
    simp only [List.map_cons, List.nodup_cons] at h
    by_cases hk : k' = k
    · subst hk
      simp only [mapSet, if_true, List.map_cons, List.nodup_cons]
      exact h
    · simp only [mapSet, hk, if_false, List.map_cons, List.nodup_cons]
      refine ⟨?_, ih h.2⟩
      rw [mem_keys_mapSet]
      rintro (e | e)
      · exact hk e
      · exact h.1 e

theorem filter_key_absent {β : Type} (m : List (String × β)) (k : String)
    (h : k ∉ m.map Prod.fst) : m.filter (fun e => e.1 = k) = [] := by
  induction m with
  | nil => rfl
  | cons a rest ih =>
    obtain ⟨k', y⟩ := a
    simp only [List.map_cons, List.mem_cons, not_or] at h
    have hk : ¬ k' = k := fun e => h.1 e.symm
    simp [List.filter_cons, hk, ih h.2]

theorem mapSet_filter_self {β : Type} (m : List (String × β)) (k : String) (v : β)
    (h : (m.map Prod.fst).Nodup) :
    (mapSet m k v).filter (fun e => e.1 = k) = [(k, v)] := by
  induction m with
  | nil => simp [mapSet]
  | cons a rest ih =>
    obtain ⟨k', y⟩ := a
    simp only [List.map_cons, List.nodup_cons] at h
    by_cases hk : k' = k
    · subst hk
      simp [mapSet, List.filter_cons, filter_key_absent rest k' h.1]
    · simp [mapSet, hk, List.filter_cons, ih h.2]

theorem mem_mapGet {β : Type} (m : List (String × β)) (k : String) (v : β)
    (hn : (m.map Prod.fst).Nodup) (h : (k, v) ∈ m) : mapGet m k = some v := by
  induction m with
  | nil => simp at h
  | cons a rest ih =>
    obtain ⟨k', y⟩ := a
    simp only [List.map_cons, List.nodup_cons] at hn
    rcases List.mem_cons.1 h with e | e
    · simp only [Prod.mk.injEq] at e
      simp [mapGet, e.1, e.2]
    · have hk : ¬ k' = k := by
        intro e'
        subst e'
        exact hn.1 (List.mem_map_of_mem Prod.fst e)
      simp only [mapGet, hk, if_false]
      exact ih hn.2 e

theorem writeFile_ok (d : Dir) (name : String) (c : Content) (f : Option Fault) (d' : Dir)
    (h : writeFile d name c f = (none, d')) : d' = mapSet d name (.file c) := by
  unfold writeFile at h
  split at h
  · simp at h
  · split at h
    · simp at h
    · simp at h
    · simp only [Prod.mk.injEq, true_and] at h
      exact h.symm

/-! ### Pinning the dependencies -/

theorem includeLoop_repositories
    (recurse : Project → String → Option (Except String Project)) (goroot : Bool)
    (hrec : ∀ p name p', recurse p name = some (.ok p') → p'.repositories = p.repositories)
    (l : List String) :
    ∀ p p', includeLoop recurse goroot p l = some (.ok p') →
      p'.repositories = p.repositories := by
  induction l with
  | nil =>
    intro p p' h
    simp only [includeLoop, Option.some.injEq, Except.ok.injEq] at h
    rw [h]
  | cons item rest ih =>
    intro p p' h
    unfold includeLoop at h
    split at h
    · exact ih p p' h
    · split at h
      · exact ih p p' h
      · cases hr : recurse p item with
        | none => simp [hr] at h
        | some r =>
          cases r with
          | error e => simp [hr] at h
          | ok q =>
            simp only [hr] at h
            rw [ih q p' h, hrec p item q hr]

theorem include_repositories (env : GoEnv) (fuel : Nat) :
    ∀ p name p', Project.include env fuel p name = some (.ok p') →
      p'.repositories = p.repositories := by
  induction fuel with
  | zero => intro p name p' h; simp [Project.include] at h
  | succ n ih =>
    intro p name p' h
    unfold Project.include at h
    cases hi : env.Import name "" with
    | error e => simp [hi] at h
    | ok pkg =>
      simp only [hi] at h
      have key := includeLoop_repositories _ _ ih _ _ p' h
      exact key

theorem commit_dirty (env : GoEnv) (name repo out : String)
    (h : env.git repo statusArgs = .ok out) (hne : out ≠ "") :
    Project.commit env name repo = (.error (dirtyError repo), [statusArgs]) := by
  simp [Project.commit, run, h, hne]

theorem pinLoop_dirty (env : GoEnv) (pkg : Package) (git dir out : String)
    (hgo : pkg.Goroot = false) (hrepo : repoOf env pkg = .ok (git, dir))
    (hst : env.git dir statusArgs = .ok out) (hne : out ≠ "")
    (l : List Package) :
    ∀ repos, mapGet repos git = none → pkg ∈ l →
      (∀ q ∈ l, ∀ d, repoOf env q = .ok (git, d) → d = dir) →
      ∃ e, pinLoop env repos l = .error e := by
  induction l with
  | nil => intro repos _ hm; simp at hm
  | cons q rest ih =>
    intro repos hnone hmem hsole
    have hrest : ∀ x ∈ rest, ∀ d, repoOf env x = .ok (git, d) → d = dir :=
      fun x hx => hsole x (List.mem_cons_of_mem _ hx)
    unfold pinLoop
    by_cases hq : q.Goroot = true
    · have hne' : pkg ≠ q := by
        intro e; rw [e, hq] at hgo; exact absurd hgo (by simp)
      have hm' : pkg ∈ rest := by
        rcases List.mem_cons.1 hmem with h | h
        · exact absurd h hne'
        · exact h
      simp only [hq, if_true]
      exact ih repos hnone hm' hrest
    · simp only [hq, Bool.false_eq_true, if_false]
      cases hr : repoOf env q with
      | error e => exact ⟨e, rfl⟩
      | ok gd =>
        obtain ⟨g, d⟩ := gd
        simp only
        by_cases hg : g = git
        · subst hg
          have hd : d = dir := hsole q (List.mem_cons_self _ _) d hr
          subst hd
          simp [hnone, commit_dirty env g d out hst hne]
        · have hne' : pkg ≠ q := by
            intro e
            rw [e, hr] at hrepo
            simp only [Except.ok.injEq, Prod.mk.injEq] at hrepo
            exact hg hrepo.1
          have hm' : pkg ∈ rest := by
            rcases List.mem_cons.1 hmem with h | h
            · exact absurd h hne'
            · exact h
          split
          · exact ih repos hnone hm' hrest
          · cases hc : (Project.commit env g d).1 with
            | error e => exact ⟨e, rfl⟩
            | ok hash =>
              simp only
              refine ih _ ?_ hm' hrest
              rw [mapGet_mapSet_ne _ _ _ _ (Ne.symm hg)]
              exact hnone

theorem pinLoop_append (env : GoEnv) (a b : List Package) :
    ∀ repos, pinLoop env repos (a ++ b) =
      match pinLoop env repos a with
      | .error e => .error e
      | .ok r1 => pinLoop env r1 b := by
  induction a with
  | nil => intro repos; simp [pinLoop]
  | cons q rest ih =>
    intro repos
    simp only [List.cons_append, pinLoop]
    split
    · exact ih repos
    · cases repoOf env q with
      | error e => rfl
      | ok gd =>
        obtain ⟨g, d⟩ := gd
        simp only
        split
        · exact ih repos
        · cases (Project.commit env g d).1 with
          | error e => rfl
          | ok hash => exact ih _

theorem pinLoop_absent (env : GoEnv) (git dir out : String)
    (hst : env.git dir statusArgs = .ok out) (hne : out ≠ "")
    (l : List Package) :
    ∀ repos r1, pinLoop env repos l = .ok r1 → mapGet repos git = none →
      (∀ q ∈ l, ∀ d, repoOf env q = .ok (git, d) → d = dir) →
      mapGet r1 git = none := by
  induction l with
  | nil =>
    intro repos r1 h hnone _
    simp only [pinLoop, Except.ok.injEq] at h
    rw [← h]; exact hnone
  | cons q rest ih =>
    intro repos r1 h hnone hsole
    have hrest : ∀ x ∈ rest, ∀ d, repoOf env x = .ok (git, d) → d = dir :=
      fun x hx => hsole x (List.mem_cons_of_mem _ hx)
    unfold pinLoop at h
    split at h
    · exact ih repos r1 h hnone hrest
    · cases hr : repoOf env q with
      | error e => simp [hr] at h
      | ok gd =>
        obtain ⟨g, d⟩ := gd
        simp only [hr] at h
        split at h
        · exact ih repos r1 h hnone hrest
        · cases hc : (Project.commit env g d).1 with
          | error e => simp [hc] at h
          | ok hash =>
            simp only [hc] at h
            refine ih _ r1 h ?_ hrest
            have hg : g ≠ git := by
              intro e
              subst e
              have hd : d = dir := hsole q (List.mem_cons_self _ _) d hr
              subst hd
              rw [commit_dirty env g d out hst hne] at hc
              simp at hc
            rw [mapGet_mapSet_ne _ _ _ _ (Ne.symm hg)]
            exact hnone

theorem NewProject_repositories (env : GoEnv) (name wd : String) (p : Project)
    (h : NewProject env name wd = .ok p) : p.repositories = [] := by
  unfold NewProject at h
  cases hi : env.Import name wd with
  | error e => simp [hi] at h
  | ok pkg =>
    simp only [hi] at h
    split at h
    · simp at h
    · split at h
      · simp at h
      · simp only [Except.ok.injEq] at h
        rw [← h]

/-- C6 (amended to the status query the code runs): when the dependency
closure of a program holds a package of a repository for which
`git status --porcelain --untracked-files=no` prints something, and no
other directory of the closure is pinned under the same key, then `commit`
on that repository returns the dirty error after running the status query
alone (no push, no `rev-parse HEAD`); `Dependencies` returns an error and no
pin set, and it is that dirty error when the packages visited before the
dirty one were pinned without error; `NewBuild` fails, and `RequestBuild`
fails without sending any build request. -/
theorem dirty_repository_fails_build (env : GoEnv) (fuel : Nat)
    (url command wd : String) (p p1 : Project) (pkg : Package) (git dir out : String)
    (hp : NewProject env command wd = .ok p)
    (hinc : p.include env fuel p.Name = some (.ok p1))
    (hmem : pkg ∈ (env.rangeOrder p1.dependencies).map Prod.snd)
    (hgo : pkg.Goroot = false)
    (hrepo : repoOf env pkg = .ok (git, dir))
    (hst : env.git dir statusArgs = .ok out) (hne : out ≠ "")
    (hsole : ∀ q ∈ (env.rangeOrder p1.dependencies).map Prod.snd,
      ∀ d, repoOf env q = .ok (git, d) → d = dir) :
    Project.commit env git dir = (.error (dirtyError dir), [statusArgs]) ∧
    (∃ e, p.Dependencies env fuel = some (.error e)) ∧
    (∀ pre rest r1, (env.rangeOrder p1.dependencies).map Prod.snd = pre ++ pkg :: rest →
      pinLoop env [] pre = .ok r1 →
      p.Dependencies env fuel = some (.error (dirtyError dir))) ∧
    (∃ e, NewBuild env fuel command wd = some (.error e)) ∧
    (∃ e, RequestBuild env fuel url command wd = some (.error e, [])) := by
  have hrep : p1.repositories = [] := by
    rw [include_repositories env fuel p p.Name p1 hinc]
    exact NewProject_repositories env command wd p hp
  have hcommit := commit_dirty env git dir out hst hne
  have hdep : ∃ e, p.Dependencies env fuel = some (.error e) := by
    obtain ⟨e, he⟩ := pinLoop_dirty env pkg git dir out hgo hrepo hst hne _ p1.repositories
      (by rw [hrep]; rfl) hmem hsole
    exact ⟨e, by simp [Project.Dependencies, hinc, he]⟩
  refine ⟨hcommit, hdep, ?_, ?_, ?_⟩
  · intro pre rest r1 hsplit hpre
    have hsole' : ∀ q ∈ pre, ∀ d, repoOf env q = .ok (git, d) → d = dir := by
      intro q hq
      exact hsole q (by rw [hsplit]; exact List.mem_append_left _ hq)
    have habs := pinLoop_absent env git dir out hst hne pre [] r1 hpre rfl hsole'
    simp only [Project.Dependencies, hinc, hrep, hsplit]
    rw [pinLoop_append, hpre]
    simp [pinLoop, hgo, hrepo, habs, hcommit]
  · obtain ⟨e, he⟩ := hdep
    exact ⟨e, by simp [NewBuild, hp, he]⟩
  · obtain ⟨e, he⟩ := hdep
    exact ⟨e, by simp [RequestBuild, NewBuild, hp, he]⟩

theorem dirty_repository_fails_build_witness :
    RequestBuild (sampleGo true) 5 "http://ship:8080" "acme/app/cmd/app" "/go/src/acme/app"
      = some (.error (dirtyError "/go/src/acme/lib"), []) ∧
    Project.commit (sampleGo true) "acme/lib" "/go/src/acme/lib"
      = (.error (dirtyError "/go/src/acme/lib"), [statusArgs]) :=
  ⟨by decide,
    (dirty_repository_fails_build (sampleGo true) 5 "http://ship:8080" "acme/app/cmd/app"
      "/go/src/acme/app" ⟨"acme/app/cmd/app", "app", [], []⟩ sampleProject
      samplePackage "acme/lib" "/go/src/acme/lib" " M lib.go\n"
      (by decide) (by decide) (by decide) (by decide) (by decide) (by decide) (by decide)
      (by
        intro q hq d h
        have hq' : q = sampleCommand ∨
            q = ⟨"fmt", "/usr/go/src/fmt", "/usr/go/src", true, "fmt", [], []⟩ ∨
            q = samplePackage := by
          simpa [sampleGo, sampleProject] using hq
        rcases hq' with rfl | rfl | rfl
        · have e : repoOf (sampleGo true) sampleCommand
              = .ok ("acme/app", "/go/src/acme/app") := by decide
          rw [e] at h
          simp only [Except.ok.injEq, Prod.mk.injEq] at h
          exact absurd h.1 (by decide)
        · have e : repoOf (sampleGo true)
              ⟨"fmt", "/usr/go/src/fmt", "/usr/go/src", true, "fmt", [], []⟩
              = .ok ("fmt", "/usr/go/src/fmt") := by decide
          rw [e] at h
          simp only [Except.ok.injEq, Prod.mk.injEq] at h
          exact absurd h.1 (by decide)
        · have e : repoOf (sampleGo true) samplePackage
              = .ok ("acme/lib", "/go/src/acme/lib") := by decide
          rw [e] at h
          simp only [Except.ok.injEq, Prod.mk.injEq, true_and] at h
          exact h.symm)).1⟩

/-- C6 (counterexample): the repository `acme/lib` of the sample workspace
has an untracked file, so its `git status --porcelain` output is not
empty; the status query of `commit` passes `--untracked-files=no` and sees
nothing, `Dependencies` pins the repository, and `RequestBuild` sends the
build request. -/
theorem untracked_file_does_not_fail_build :
    (sampleGo false).git "/go/src/acme/lib" ["status", "--porcelain"] = .ok "?? notes.txt\n" ∧
    (∃ p1, Project.include (sampleGo false) 5 ⟨"acme/app/cmd/app", "app", [], []⟩
        "acme/app/cmd/app" = some (.ok p1) ∧
      mapGet p1.dependencies "acme/lib" = some samplePackage) ∧
    repoOf (sampleGo false) samplePackage = .ok ("acme/lib", "/go/src/acme/lib") ∧
    Project.Dependencies (sampleGo false) 5 ⟨"acme/app/cmd/app", "app", [], []⟩
      = some (.ok [("acme/app", "1111"), ("acme/lib", "2222")]) ∧
    RequestBuild (sampleGo false) 5 "http://ship:8080" "acme/app/cmd/app" "/go/src/acme/app"
      = some (.ok "abc", [⟨"acme/app/cmd/app", "app", "amy", 0,
          [("acme/app", "1111"), ("acme/lib", "2222")]⟩]) := by
  refine ⟨by decide, ⟨_, rfl, by decide⟩, by decide, by decide, by decide⟩

/-! ### The build pipeline -/

/-- C7 (counterexample): a build whose `save` fails while copying, and a
build whose log cannot be renamed, both return an error; the first leaves
`ab.gz` in the builds directory, the second `ab.gz` and `ab.json`. -/
theorem make_failure_leaves_artifacts :
    (sampleBuilder.Make { sampleTool with saveFault := some (.truncated "no space left") } []).map
        (fun m => (m.result, m.dir.map Prod.fst))
      = some (.error "no space left", ["ab.gz"]) ∧
    (sampleBuilder.Make { sampleTool with renameFault := some "permission denied" } []).map
        (fun m => (m.result, m.dir.map Prod.fst))
      = some (.error "permission denied", ["ab.gz", "ab.json"]) := by
  constructor <;> decide

/-- C7 (amended): when `Make` ends before it enters `save`, that is with
the error of the log creation, of `checkout`, of `compile` or of
`checksum`, it returns an error and the builds directory is exactly as it
was: the build has created none of `<BuildID>.gz`, `<BuildID>.json`,
`<BuildID>.build`. -/
theorem make_failure_before_save_creates_nothing (t : Toolchain) (b : Builder) (dir : Dir)
    (m : Made) (h : b.Make t dir = some m) (hs : Stage.save ∉ m.ran) :
    (∃ e, m.result = .error e) ∧ m.dir = dir ∧
    ∀ name, mapGet m.dir name = mapGet dir name := by
  have key : (∃ e, m.result = .error e) ∧ m.dir = dir := by
    unfold Builder.Make at h
    cases hc : t.createLog with
    | some e =>
      simp only [hc, Option.some.injEq] at h
      subst h
      exact ⟨⟨e, rfl⟩, rfl⟩
    | none =>
      simp only [hc] at h
      cases hk : b.checkout t with
      | none => simp [hk] at h
      | some r =>
        cases r with
        | some e =>
          simp only [hk, Option.some.injEq] at h
          subst h
          exact ⟨⟨e, rfl⟩, rfl⟩
        | none =>
          simp only [hk] at h
          cases hco : b.compile t with
          | some e =>
            simp only [hco, Option.some.injEq] at h
            subst h
            exact ⟨⟨e, rfl⟩, rfl⟩
          | none =>
            simp only [hco] at h
            cases hcs : b.checksum t with
            | error e =>
              simp only [hcs, Option.some.injEq] at h
              subst h
              exact ⟨⟨e, rfl⟩, rfl⟩
            | ok b1 =>
              simp only [hcs] at h
              exfalso
              apply hs
              split at h
              · simp only [Option.some.injEq] at h
                subst h; simp
              · split at h
                · simp only [Option.some.injEq] at h
                  subst h; simp
                · split at h <;>
                  · simp only [Option.some.injEq] at h
                    subst h; simp
  exact ⟨key.1, key.2, fun name => by rw [key.2]⟩

theorem make_failure_before_save_creates_nothing_witness :
    (∃ m, sampleBuilder.Make { sampleTool with goInstall := some "exit status 2" }
        [("old.gz", .file (.gz [9]))] = some m ∧ Stage.save ∉ m.ran ∧
      m.dir = [("old.gz", .file (.gz [9]))]) :=
  ⟨_, rfl, by decide,
    (make_failure_before_save_creates_nothing
      { sampleTool with goInstall := some "exit status 2" } sampleBuilder
      [("old.gz", .file (.gz [9]))] _ rfl (by decide)).2.1⟩

theorem wait_first_failure (reports : List (Option String)) :
    wait reports.length reports = some (reports.findSome? (fun r => r)) := by
  induction reports with
  | nil => rfl
  | cons r rs ih =>
    cases r with
    | none => simpa [wait, List.findSome?] using ih
    | some e => simp [wait, List.findSome?]

theorem findSome_none_iff (reports : List (Option String)) :
    reports.findSome? (fun r => r) = none ↔ ∀ r ∈ reports, r = none := by
  induction reports with
  | nil => simp
  | cons r rs ih =>
    cases r with
    | none => simp [List.findSome?, ih]
    | some e => simp [List.findSome?]

/-- C8: for `N` pins whose `N` reports arrive in any order, the receive
loop of `checkout` returns the first failure of the sequence, and nil
exactly when all reports are successes; `Make` enters `compile` only if
`checkout` returned nil, and after a failed checkout it returns the checkout
error having run no later stage and written nothing. -/
theorem checkout_first_failure_aborts_make (t : Toolchain) (b : Builder) (dir : Dir)
    (hlen : (t.arrival b.Build.Versions).length = b.Build.Versions.length) :
    (∀ reports : List (Option String),
      wait reports.length reports = some (reports.findSome? (fun r => r)) ∧
      (wait reports.length reports = some none ↔ ∀ r ∈ reports, r = none)) ∧
    b.checkout t = some (((t.arrival b.Build.Versions).map
      (fun v => clone t b.Workspace v.1 v.2)).findSome? (fun r => r)) ∧
    ∃ m, b.Make t dir = some m ∧
      (Stage.compile ∈ m.ran → b.checkout t = some none) ∧
      (∀ e, t.createLog = none → b.checkout t = some (some e) →
        m.result = .error e ∧ m.ran = [.checkout] ∧ m.dir = dir) := by
  have hw : ∀ reports : List (Option String),
      wait reports.length reports = some (reports.findSome? (fun r => r)) ∧
      (wait reports.length reports = some none ↔ ∀ r ∈ reports, r = none) := by
    intro reports
    refine ⟨wait_first_failure reports, ?_⟩
    rw [wait_first_failure, Option.some.injEq]
    exact findSome_none_iff reports
  have hck : b.checkout t = some (((t.arrival b.Build.Versions).map
      (fun v => clone t b.Workspace v.1 v.2)).findSome? (fun r => r)) := by
    unfold Builder.checkout
    rw [← hlen, ← List.length_map (t.arrival b.Build.Versions)
      (fun v => clone t b.Workspace v.1 v.2)]
    exact wait_first_failure _
  refine ⟨hw, hck, ?_⟩
  generalize hres : ((t.arrival b.Build.Versions).map
      (fun v => clone t b.Workspace v.1 v.2)).findSome? (fun r => r) = res at hck
  unfold Builder.Make
  cases hc : t.createLog with
  | some e0 => exact ⟨_, rfl, by simp, by intro e h; simp at h⟩
  | none =>
    simp only [hck]
    cases res with
    | some e1 =>
      refine ⟨_, rfl, by simp, ?_⟩
      intro e _ he
      simp only [Option.some.injEq] at he
      subst he
      exact ⟨rfl, rfl, rfl⟩
    | none =>
      simp only
      cases b.compile t with
      | some e => exact ⟨_, rfl, by simp, by simp⟩
      | none =>
        cases b.checksum t with
        | error e => exact ⟨_, rfl, by simp, by simp⟩
        | ok b1 =>
          simp only
          split
          · exact ⟨_, rfl, by simp, by simp⟩
          · split
            · exact ⟨_, rfl, by simp, by simp⟩
            · split <;> exact ⟨_, rfl, by simp, by simp⟩

theorem checkout_first_failure_aborts_make_witness :
    (sampleTool.arrival sampleBuild.Versions).length = sampleBuild.Versions.length ∧
    sampleBuilder.checkout
      { sampleTool with
        git := fun _ a => if a = ["checkout", "-q", "2222"] then some "exit status 128" else none }
      = some (some "git checkout -q 2222\n\nexit status 128") :=
  ⟨by decide,
    (checkout_first_failure_aborts_make
      { sampleTool with
        git := fun _ a => if a = ["checkout", "-q", "2222"] then some "exit status 128" else none }
      sampleBuilder [] (by decide)).2.1.trans (by decide)⟩

/-! ### The instance registry -/

theorem register_ok (w : World) (s s' : Server) (disk disk' : Disk) (item : App)
    (h : s.register w disk item = .ok (s', disk')) :
    ∃ n, path.entryOf item.Name = some n ∧
      s' = { s with apps := (mapSet s.apps item.Name
        (mapSet ((mapGet s.apps item.Name).getD []) item.URL item)) } ∧
      disk' = { disk with apps := (mapSet disk.apps n
        (.file (.instances (mapSet ((mapGet s.apps item.Name).getD []) item.URL item)))) } := by
  unfold Server.register at h
  simp only at h
  split at h
  · simp at h
  · cases hn : path.entryOf item.Name with
    | none => simp [hn] at h
    | some n =>
      simp only [hn] at h
      split at h
      · simp at h
      · rename_i apps' hw
        simp only [Except.ok.injEq, Prod.mk.injEq] at h
        refine ⟨n, rfl, h.1.symm, ?_⟩
        rw [← h.2, writeFile_ok _ _ _ _ _ hw]

/-- C9: when the registrations `(p, u, h1)` and then `(p, u, h2)` are both
processed (neither ends in `log.Fatal`), the registry, a map with distinct
keys, holds exactly one entry for `p`, the instance map of `p` holds exactly
one entry for `u`, its version is `h2`, and the file of `p` in the apps
directory holds that same instance map. -/
theorem register_twice_keeps_latest (w1 w2 : World) (s s1 s2 : Server)
    (disk d1 d2 : Disk) (p u h1 h2 : String)
    (hs : (s.apps.map Prod.fst).Nodup)
    (hm : ∀ m, mapGet s.apps p = some m → (m.map Prod.fst).Nodup)
    (_hne : h1 ≠ h2)
    (r1 : s.register w1 disk ⟨p, u, h1⟩ = .ok (s1, d1))
    (r2 : s1.register w2 d1 ⟨p, u, h2⟩ = .ok (s2, d2)) :
    ∃ m, s2.apps.filter (fun e => e.1 = p) = [(p, m)] ∧
      m.filter (fun e => e.1 = u) = [(u, ⟨p, u, h2⟩)] ∧
      mapGet s2.apps p = some m ∧ mapGet m u = some ⟨p, u, h2⟩ ∧
      ∃ n, path.entryOf p = some n ∧ mapGet d2.apps n = some (.file (.instances m)) := by
  obtain ⟨n1, _, e1, _⟩ := register_ok w1 s s1 disk d1 _ r1
  obtain ⟨n2, hn2, e2, f2⟩ := register_ok w2 s1 s2 d1 d2 _ r2
  simp only at e1 e2 f2 hn2
  have hg : mapGet s1.apps p = some (mapSet ((mapGet s.apps p).getD []) u ⟨p, u, h1⟩) := by
    rw [e1]; exact mapGet_mapSet_self _ _ _
  rw [hg] at e2 f2
  simp only [Option.getD_some] at e2 f2
  have hm0 : (((mapGet s.apps p).getD []).map Prod.fst).Nodup := by
    cases hq : mapGet s.apps p with
    | none => simp
    | some m => simpa using hm m hq
  have hm1 := mapSet_nodup _ u (⟨p, u, h1⟩ : App) hm0
  have hs1 : (s1.apps.map Prod.fst).Nodup := by
    rw [e1]; exact mapSet_nodup _ _ _ hs
  refine ⟨_, ?_, mapSet_filter_self _ u _ hm1, ?_, mapGet_mapSet_self _ _ _, n2, hn2, ?_⟩
  · rw [e2]; exact mapSet_filter_self _ p _ hs1
  · rw [e2]; exact mapGet_mapSet_self _ _ _
  · rw [f2]; exact mapGet_mapSet_self _ _ _

theorem register_twice_keeps_latest_witness :
    ∃ s2 d2, (do
        let (s1, d1) ← sampleServer.register sampleWorld sampleDisk ⟨"app", "web-1:9000", "h1"⟩
        s1.register sampleWorld d1 ⟨"app", "web-1:9000", "h2"⟩) = .ok (s2, d2) ∧
      ∃ m, mapGet s2.apps "app" = some m ∧
        m.filter (fun e => e.1 = "web-1:9000") = [("web-1:9000", ⟨"app", "web-1:9000", "h2"⟩)] :=
  ⟨_, _, rfl,
    (register_twice_keeps_latest sampleWorld sampleWorld sampleServer _ _ sampleDisk _ _
      "app" "web-1:9000" "h1" "h2" (by decide)
      (by
        intro m hq
        have e : mapGet sampleServer.apps "app" = some sampleApps := by decide
        rw [e] at hq
        simp only [Option.some.injEq] at hq
        subst hq
        decide)
      (by decide) rfl rfl).elim
      (fun m hmm => ⟨m, hmm.2.2.1, hmm.2.1⟩)⟩

/-! ### Names of the entries of the builds directory -/

theorem indexChars_dot_split (l : List Char) :
    ∀ i, strings.indexChars l ['.'] = some i → l = l.take i ++ '.' :: l.drop (i + 1) := by
  induction l with
  | nil => intro i h; simp [strings.indexChars] at h
  | cons c cs ih =>
    intro i h
    unfold strings.indexChars at h
    by_cases hc : c = '.'
    · subst hc
      simp [List.isPrefixOf] at h
      subst h
      simp
    · have hp : List.isPrefixOf ['.'] (c :: cs) = false := by
        simp [List.isPrefixOf, Ne.symm hc]
      simp only [hp, Bool.false_eq_true, if_false, Option.map_eq_some'] at h
      obtain ⟨j, hj, rfl⟩ := h
      have := ih j hj
      simp only [List.take_succ_cons, List.drop_succ_cons, List.cons_append]
      rw [← this]

theorem indexChars_dot_append (a b : List Char) (h : '.' ∉ a) :
    strings.indexChars (a ++ '.' :: b) ['.'] = some a.length := by
  induction a with
  | nil => simp [strings.indexChars, List.isPrefixOf]
  | cons c cs ih =>
    simp only [List.mem_cons, not_or] at h
    have hp : List.isPrefixOf ['.'] (c :: (cs ++ '.' :: b)) = false := by
      simp [List.isPrefixOf, h.1]
    simp [strings.indexChars, hp, ih h.2]

theorem cutAtDot_name (name stem ext : String) (h : cutAtDot name = some (stem, ext)) :
    name = stem ++ "." ++ ext := by
  unfold cutAtDot strings.Index at h
  cases hi : strings.indexChars name.data ".".data with
  | none => simp [hi] at h
  | some i =>
    simp only [hi, Option.some.injEq, Prod.mk.injEq] at h
    have e := indexChars_dot_split name.data i hi
    apply String.ext
    rw [← h.1, ← h.2]
    simp only [String.data_append]
    rw [List.append_assoc]
    exact e

theorem cutAtDot_append (stem ext : String) (h : '.' ∉ stem.data) :
    cutAtDot (stem ++ "." ++ ext) = some (stem, ext) := by
  unfold cutAtDot strings.Index
  have e : (stem ++ "." ++ ext).data = stem.data ++ '.' :: ext.data := by
    simp [String.data_append]
  have hi := indexChars_dot_append stem.data ext.data h
  rw [e]
  have hd : ".".data = ['.'] := rfl
  rw [hd, hi]
  have hdrop : List.drop (stem.data.length + 1) (stem.data ++ '.' :: ext.data) = ext.data := by
    rw [show stem.data ++ '.' :: ext.data = (stem.data ++ ['.']) ++ ext.data by simp]
    exact List.drop_left' (by simp)
  simp only [List.take_left', Option.some.injEq, Prod.mk.injEq, hdrop]

theorem hexDigit_ne_dot (n : Nat) : hexDigit n ≠ '.' := by
  unfold hexDigit
  have h : n % 16 < 16 := Nat.mod_lt _ (by decide)
  generalize n % 16 = k at h
  interval_cases k <;> decide

theorem hex_no_dot (sum : List Nat) : '.' ∉ (hex sum).data := by
  unfold hex
  simp only [List.mem_flatten, List.mem_map, not_exists, not_and]
  rintro l ⟨b, _, rfl⟩ hmem
  simp only [List.mem_cons, List.mem_singleton, List.not_mem_nil, or_false] at hmem
  rcases hmem with e | e
  · exact hexDigit_ne_dot _ e.symm
  · exact hexDigit_ne_dot _ e.symm

theorem dot_json : ∀ stem : String, stem ++ "." ++ "json" = stem ++ ".json" := by
  intro stem
  apply String.ext
  simp [String.data_append]

/-! ### Rebuilding a map from a listing -/

theorem mem_mapSet {β : Type} (m : List (String × β)) (k : String) (v : β)
    (e : String × β) (hn : (m.map Prod.fst).Nodup) (h : e ∈ mapSet m k v) :
    e = (k, v) ∨ (e ∈ m ∧ e.1 ≠ k) := by
  induction m with
  | nil =>
    simp only [mapSet, List.mem_singleton] at h
    exact Or.inl h
  | cons a rest ih =>
    obtain ⟨k', y⟩ := a
    simp only [List.map_cons, List.nodup_cons] at hn
    by_cases hk : k' = k
    · subst hk
      simp only [mapSet, if_true, List.mem_cons] at h
      rcases h with h | h
      · exact Or.inl h
      · refine Or.inr ⟨List.mem_cons_of_mem _ h, ?_⟩
        intro he
        exact hn.1 (he ▸ List.mem_map_of_mem Prod.fst h)
    · simp only [mapSet, hk, if_false, List.mem_cons] at h
      rcases h with h | h
      · subst h
        exact Or.inr ⟨List.mem_cons_self _ _, hk⟩
      · rcases ih hn.2 h with h' | h'
        · exact Or.inl h'
        · exact Or.inr ⟨List.mem_cons_of_mem _ h'.1, h'.2⟩

theorem mem_mapSet_self {β : Type} (m : List (String × β)) (k : String) (v : β) :
    (k, v) ∈ mapSet m k v := by
  induction m with
  | nil => simp [mapSet]
  | cons a rest ih =>
    obtain ⟨k', y⟩ := a
    by_cases hk : k' = k
    · simp [mapSet, hk]
    · simp only [mapSet, hk, if_false]
      exact List.mem_cons_of_mem _ ih

theorem mem_mapSet_of_ne {β : Type} (m : List (String × β)) (k : String) (v : β)
    (e : String × β) (h : e ∈ m) (hk : e.1 ≠ k) : e ∈ mapSet m k v := by
  induction m with
  | nil => simp at h
  | cons a rest ih =>
    obtain ⟨k', y⟩ := a
    rcases List.mem_cons.1 h with h' | h'
    · subst h'
      simp only [ne_eq] at hk
      simp [mapSet, hk]
    · by_cases hk' : k' = k
      · simp only [mapSet, hk', if_true]
        exact List.mem_cons_of_mem _ h'
      · simp only [mapSet, hk', if_false]
        exact List.mem_cons_of_mem _ (ih h')

theorem collect_frame {β : Type} (key : String × Node → Option (String × β))
    (id : String) (es : List (String × Node)) :
    ∀ acc, (∀ e ∈ es, ∀ v, key e ≠ some (id, v)) →
      mapGet (collect key es acc) id = mapGet acc id := by
  induction es with
  | nil => intro acc _; rfl
  | cons e rest ih =>
    intro acc h
    have hrest : ∀ x ∈ rest, ∀ v, key x ≠ some (id, v) :=
      fun x hx => h x (List.mem_cons_of_mem _ hx)
    unfold collect
    cases hk : key e with
    | none => exact ih acc hrest
    | some kv =>
      obtain ⟨k, v⟩ := kv
      simp only
      rw [ih _ hrest]
      have hne : id ≠ k := by
        intro e'
        subst e'
        exact h e (List.mem_cons_self _ _) v hk
      exact mapGet_mapSet_ne _ _ _ _ hne

theorem collect_found {β : Type} (key : String × Node → Option (String × β))
    (hinj : ∀ e1 e2 k v1 v2, key e1 = some (k, v1) → key e2 = some (k, v2) → e1.1 = e2.1)
    (id : String) (b : β) (es : List (String × Node)) :
    ∀ acc, (es.map Prod.fst).Nodup → ∀ e ∈ es, key e = some (id, b) →
      mapGet (collect key es acc) id = some b := by
  induction es with
  | nil => intro acc _ e he; simp at he
  | cons x rest ih =>
    intro acc hn e he hk
    simp only [List.map_cons, List.nodup_cons] at hn
    rcases List.mem_cons.1 he with h | h
    · subst h
      unfold collect
      simp only [hk]
      rw [collect_frame key id rest]
      · exact mapGet_mapSet_self _ _ _
      · intro y hy v hv
        have := hinj e y id b v hk hv
        exact hn.1 (this ▸ List.mem_map_of_mem Prod.fst hy)
    · unfold collect
      cases key x with
      | none => exact ih acc hn.2 e h hk
      | some kv => exact ih _ hn.2 e h hk

theorem collect_origin {β : Type} (key : String × Node → Option (String × β))
    (id : String) (b : β) (es : List (String × Node)) :
    ∀ acc, mapGet (collect key es acc) id = some b →
      mapGet acc id = some b ∨ ∃ e ∈ es, key e = some (id, b) := by
  induction es with
  | nil => intro acc h; exact Or.inl h
  | cons x rest ih =>
    intro acc h
    unfold collect at h
    cases hk : key x with
    | none =>
      simp only [hk] at h
      rcases ih acc h with h' | ⟨e, he, hke⟩
      · exact Or.inl h'
      · exact Or.inr ⟨e, List.mem_cons_of_mem _ he, hke⟩
    | some kv =>
      obtain ⟨k, v⟩ := kv
      simp only [hk] at h
      rcases ih _ h with h' | ⟨e, he, hke⟩
      · by_cases hid : id = k
        · subst hid
          rw [mapGet_mapSet_self] at h'
          simp only [Option.some.injEq] at h'
          subst h'
          exact Or.inr ⟨x, List.mem_cons_self _ _, hk⟩
        · rw [mapGet_mapSet_ne _ _ _ _ hid] at h'
          exact Or.inl h'
      · exact Or.inr ⟨e, List.mem_cons_of_mem _ he, hke⟩

theorem buildKey_some (name : String) (node : Node) (id : String) (b : Builder) :
    buildKey (name, node) = some (id, b) ↔
      node = .file (.manifest b) ∧ cutAtDot name = some (id, "json") := by
  unfold buildKey
  constructor
  · intro h
    split at h
    · rename_i b' hb
      simp only at hb
      split at h
      · rename_i stem ext hc
        split at h
        · rename_i hext
          simp only [Option.some.injEq, Prod.mk.injEq] at h
          subst hext
          rw [hb, hc, ← h.1, ← h.2]
          exact ⟨rfl, rfl⟩
        · simp at h
      · simp at h
    · simp at h
  · rintro ⟨rfl, hc⟩
    simp [hc]

theorem appKey_some (name : String) (node : Node) (p : String) (m : List (String × App)) :
    appKey (name, node) = some (p, m) ↔ node = .file (.instances m) ∧ name = p := by
  unfold appKey
  constructor
  · intro h
    split at h
    · rename_i m' hm
      simp only at hm
      simp only [Option.some.injEq, Prod.mk.injEq] at h
      rw [hm, ← h.2]
      exact ⟨rfl, h.1⟩
    · simp at h
  · rintro ⟨rfl, rfl⟩
    rfl

theorem buildKey_inj (e1 e2 : String × Node) (k : String) (v1 v2 : Builder)
    (h1 : buildKey e1 = some (k, v1)) (h2 : buildKey e2 = some (k, v2)) : e1.1 = e2.1 := by
  obtain ⟨n1, x1⟩ := e1
  obtain ⟨n2, x2⟩ := e2
  have c1 := ((buildKey_some n1 x1 k v1).1 h1).2
  have c2 := ((buildKey_some n2 x2 k v2).1 h2).2
  simp only
  rw [cutAtDot_name n1 k "json" c1, cutAtDot_name n2 k "json" c2]

theorem appKey_inj (e1 e2 : String × Node) (k : String) (v1 v2 : List (String × App))
    (h1 : appKey e1 = some (k, v1)) (h2 : appKey e2 = some (k, v2)) : e1.1 = e2.1 := by
  obtain ⟨n1, x1⟩ := e1
  obtain ⟨n2, x2⟩ := e2
  have c1 := ((appKey_some n1 x1 k v1).1 h1).2
  have c2 := ((appKey_some n2 x2 k v2).1 h2).2
  simp only
  rw [c1, c2]

/-! ### Recovery reads what the listing holds -/

theorem buildKey_none_of_cut (name : String) (node : Node)
    (h : ∀ stem, cutAtDot name ≠ some (stem, "json")) : buildKey (name, node) = none := by
  cases hk : buildKey (name, node) with
  | none => rfl
  | some kv =>
    obtain ⟨id, b⟩ := kv
    exact absurd ((buildKey_some name node id b).1 hk).2 (h id)

theorem readEntries_eq (builds : Dir) (hn : distinctNames builds)
    (es : List (String × Node)) :
    ∀ s : Server, (∀ e ∈ es, e ∈ builds) →
      (∀ name c stem, (name, Node.file c) ∈ es → cutAtDot name = some (stem, "json") →
        ∃ b, c = .manifest b) →
      Server.readEntries builds s es
        = .ok { s with Builders := collect buildKey es s.Builders } := by
  induction es with
  | nil => intro s _ _; rfl
  | cons e rest ih =>
    intro s hsub hman
    obtain ⟨name, node⟩ := e
    have hsub' : ∀ x ∈ rest, x ∈ builds := fun x hx => hsub x (List.mem_cons_of_mem _ hx)
    have hman' : ∀ name c stem, (name, Node.file c) ∈ rest →
        cutAtDot name = some (stem, "json") → ∃ b, c = .manifest b :=
      fun n c st hx => hman n c st (List.mem_cons_of_mem _ hx)
    cases node with
    | dir =>
      have hk : buildKey (name, Node.dir) = none := rfl
      simp only [Server.readEntries, collect, hk]
      exact ih s hsub' hman'
    | file c =>
      cases hc : cutAtDot name with
      | none =>
        have hk : buildKey (name, Node.file c) = none :=
          buildKey_none_of_cut name _ (by intro stem; rw [hc]; simp)
        simp only [Server.readEntries, collect, hk, hc]
        exact ih s hsub' hman'
      | some se =>
        obtain ⟨stem, ext⟩ := se
        by_cases hext : ext = "json"
        · subst hext
          obtain ⟨b, rfl⟩ := hman name c stem (List.mem_cons_self _ _) hc
          have hname : name = stem ++ ".json" := by
            rw [← dot_json]; exact cutAtDot_name name stem "json" hc
          have hget : mapGet builds (stem ++ ".json") = some (.file (.manifest b)) := by
            rw [← hname]
            exact mem_mapGet builds name _ hn (hsub _ (List.mem_cons_self _ _))
          have hk : buildKey (name, Node.file (.manifest b)) = some (stem, b) :=
            (buildKey_some name _ stem b).2 ⟨rfl, hc⟩
          simp only [Server.readEntries, collect, hk, hc, if_true, Server.readBuilder, hget]
          exact ih _ hsub' hman'
        · have hk : buildKey (name, Node.file c) = none :=
            buildKey_none_of_cut name _ (by
              intro st; rw [hc]; simp only [ne_eq, Option.some.injEq, Prod.mk.injEq, not_and]
              intro _; exact hext)
          simp only [Server.readEntries, collect, hk, hc, hext, if_false]
          exact ih s hsub' hman'

theorem readEntries_manifest (builds : Dir) (hn : distinctNames builds)
    (es : List (String × Node)) :
    ∀ s s' : Server, (∀ e ∈ es, e ∈ builds) →
      Server.readEntries builds s es = .ok s' →
      ∀ name c stem, (name, Node.file c) ∈ es → cutAtDot name = some (stem, "json") →
        ∃ b, c = .manifest b := by
  induction es with
  | nil => intro s s' _ _ name c stem hmem; simp at hmem
  | cons e rest ih =>
    intro s s' hsub h name c stem hmem hcut
    obtain ⟨n0, node⟩ := e
    have hsub' : ∀ x ∈ rest, x ∈ builds := fun x hx => hsub x (List.mem_cons_of_mem _ hx)
    cases node with
    | dir =>
      simp only [Server.readEntries] at h
      rcases List.mem_cons.1 hmem with e' | e'
      · simp at e'
      · exact ih s s' hsub' h name c stem e' hcut
    | file c0 =>
      cases hc : cutAtDot n0 with
      | none =>
        simp only [Server.readEntries, hc] at h
        rcases List.mem_cons.1 hmem with e' | e'
        · simp only [Prod.mk.injEq, Node.file.injEq] at e'
          rw [e'.1, hc] at hcut
          simp at hcut
        · exact ih s s' hsub' h name c stem e' hcut
      | some se =>
        obtain ⟨st0, ext0⟩ := se
        by_cases hext : ext0 = "json"
        · subst hext
          have hname : n0 = st0 ++ ".json" := by
            rw [← dot_json]; exact cutAtDot_name n0 st0 "json" hc
          have hget : mapGet builds (st0 ++ ".json") = some (.file c0) := by
            rw [← hname]
            exact mem_mapGet builds n0 _ hn (hsub _ (List.mem_cons_self _ _))
          simp only [Server.readEntries, hc, if_true, Server.readBuilder, hget] at h
          cases c0 with
          | manifest b0 =>
            simp only at h
            rcases List.mem_cons.1 hmem with e' | e'
            · simp only [Prod.mk.injEq, Node.file.injEq] at e'
              exact ⟨b0, e'.2⟩
            · exact ih _ s' hsub' h name c stem e' hcut
          | raw _ => simp at h
          | gz _ => simp at h
          | instances _ => simp at h
          | requests _ => simp at h
        · simp only [Server.readEntries, hc, hext, if_false] at h
          rcases List.mem_cons.1 hmem with e' | e'
          · simp only [Prod.mk.injEq, Node.file.injEq] at e'
            rw [e'.1, hc] at hcut
            simp only [Option.some.injEq, Prod.mk.injEq] at hcut
            exact absurd hcut.2 hext
          · exact ih s s' hsub' h name c stem e' hcut

theorem readApps_eq (es : List (String × Node)) :
    ∀ s : Server,
      (∀ name c, (name, Node.file c) ∈ es → ∃ m, c = .instances m) →
      Server.readApps s es = .ok { s with apps := collect appKey es s.apps } := by
  induction es with
  | nil => intro s _; rfl
  | cons e rest ih =>
    intro s hinst
    obtain ⟨name, node⟩ := e
    have hinst' : ∀ name c, (name, Node.file c) ∈ rest → ∃ m, c = .instances m :=
      fun n c hx => hinst n c (List.mem_cons_of_mem _ hx)
    cases node with
    | dir =>
      have hk : appKey (name, Node.dir) = none := rfl
      simp only [Server.readApps, collect, hk]
      exact ih s hinst'
    | file c =>
      obtain ⟨m, rfl⟩ := hinst name c (List.mem_cons_self _ _)
      have hk : appKey (name, Node.file (.instances m)) = some (name, m) := rfl
      simp only [Server.readApps, collect, hk]
      exact ih _ hinst'

theorem readApps_instances (es : List (String × Node)) :
    ∀ s s' : Server, Server.readApps s es = .ok s' →
      ∀ name c, (name, Node.file c) ∈ es → ∃ m, c = .instances m := by
  induction es with
  | nil => intro s s' _ name c hmem; simp at hmem
  | cons e rest ih =>
    intro s s' h name c hmem
    obtain ⟨n0, node⟩ := e
    cases node with
    | dir =>
      simp only [Server.readApps] at h
      rcases List.mem_cons.1 hmem with e' | e'
      · simp at e'
      · exact ih s s' h name c e'
    | file c0 =>
      cases c0 with
      | instances m0 =>
        simp only [Server.readApps] at h
        rcases List.mem_cons.1 hmem with e' | e'
        · simp only [Prod.mk.injEq, Node.file.injEq] at e'
          exact ⟨m0, e'.2⟩
        · exact ih _ s' h name c e'
      | raw _ => simp [Server.readApps] at h
      | gz _ => simp [Server.readApps] at h
      | manifest _ => simp [Server.readApps] at h
      | requests _ => simp [Server.readApps] at h

theorem recover_eq (host root : String) (disk : Disk) (hb : distinctNames disk.builds)
    (hman : ∀ name c stem, (name, Node.file c) ∈ disk.builds →
      cutAtDot name = some (stem, "json") → ∃ b, c = .manifest b)
    (hinst : ∀ name c, (name, Node.file c) ∈ disk.apps → ∃ m, c = .instances m) :
    Server.recover host root disk
      = .ok (⟨host, root, path.Join [root, "builds"], collect buildKey disk.builds [], [],
          collect appKey disk.apps []⟩,
        { disk with builds := disk.builds.filter (fun e => e.2 ≠ .dir) }) := by
  unfold Server.recover Server.readBuilds
  simp only
  rw [readEntries_eq disk.builds hb disk.builds _ (fun e he => he) hman]
  simp only
  rw [readApps_eq disk.apps _ hinst]

theorem recover_ok (host root : String) (disk : Disk) (hb : distinctNames disk.builds)
    (s : Server) (d : Disk) (h : Server.recover host root disk = .ok (s, d)) :
    (∀ name c stem, (name, Node.file c) ∈ disk.builds →
      cutAtDot name = some (stem, "json") → ∃ b, c = .manifest b) ∧
    (∀ name c, (name, Node.file c) ∈ disk.apps → ∃ m, c = .instances m) := by
  unfold Server.recover Server.readBuilds at h
  simp only at h
  cases h1 : Server.readEntries disk.builds
      ⟨host, root, path.Join [root, "builds"], [], [], []⟩ disk.builds with
  | error e => simp [h1] at h
  | ok s1 =>
    simp only [h1] at h
    cases h2 : Server.readApps s1 disk.apps with
    | error e => simp [h2] at h
    | ok s2 =>
      exact ⟨readEntries_manifest disk.builds hb disk.builds _ s1 (fun e he => he) h1,
        readApps_instances disk.apps s1 s2 h2⟩

theorem filter_files_nodup (d : Dir) (h : distinctNames d) :
    distinctNames (d.filter (fun e => e.2 ≠ .dir)) := by
  unfold distinctNames at *
  exact List.Nodup.sublist ((List.filter_sublist d).map Prod.fst) h

theorem consistent_of_collect (host root builds : String) (rq : List (String × Requests))
    (disk : Disk) (hb : distinctNames disk.builds) (ha : distinctNames disk.apps)
    (hman : ∀ name c stem, (name, Node.file c) ∈ disk.builds →
      cutAtDot name = some (stem, "json") → ∃ b, c = .manifest b)
    (hinst : ∀ name c, (name, Node.file c) ∈ disk.apps → ∃ m, c = .instances m) :
    Consistent
      ⟨host, root, builds, collect buildKey disk.builds [], rq, collect appKey disk.apps []⟩
      { disk with builds := disk.builds.filter (fun e => e.2 ≠ .dir) } := by
  refine ⟨filter_files_nodup _ hb, ha, ?_, ?_, ?_, ?_⟩
  · intro name c stem hmem hcut
    have hmem' : (name, Node.file c) ∈ disk.builds := (List.mem_filter.1 hmem).1
    obtain ⟨b, rfl⟩ := hman name c stem hmem' hcut
    exact ⟨b, rfl, collect_found buildKey buildKey_inj stem b disk.builds [] hb _ hmem'
      ((buildKey_some name _ stem b).2 ⟨rfl, hcut⟩)⟩
  · intro id b hget
    rcases collect_origin buildKey id b disk.builds [] hget with h | ⟨e, he, hk⟩
    · simp [mapGet] at h
    · obtain ⟨name, node⟩ := e
      obtain ⟨rfl, hcut⟩ := (buildKey_some name node id b).1 hk
      have hname : name = id ++ ".json" := by
        rw [← dot_json]; exact cutAtDot_name name id "json" hcut
      subst hname
      exact ⟨List.mem_filter.2 ⟨he, by simp⟩, hcut⟩
  · intro name c hmem
    obtain ⟨m, rfl⟩ := hinst name c hmem
    exact ⟨m, rfl, collect_found appKey appKey_inj name m disk.apps [] ha _ hmem rfl⟩
  · intro p m hget
    rcases collect_origin appKey p m disk.apps [] hget with h | ⟨e, he, hk⟩
    · simp [mapGet] at h
    · obtain ⟨name, node⟩ := e
      obtain ⟨rfl, rfl⟩ := (appKey_some name node p m).1 hk
      exact he

theorem consistent_boot (host root : String) (disk0 : Disk) (s : Server) (disk : Disk)
    (hb : distinctNames disk0.builds) (ha : distinctNames disk0.apps)
    (h : Server.recover host root disk0 = .ok (s, disk)) : Consistent s disk := by
  obtain ⟨hman, hinst⟩ := recover_ok host root disk0 hb s disk h
  rw [recover_eq host root disk0 hb hman hinst] at h
  simp only [Except.ok.injEq, Prod.mk.injEq] at h
  rw [← h.1, ← h.2]
  exact consistent_of_collect host root _ [] disk0 hb ha hman hinst

theorem recover_consistent (host root : String) (s : Server) (disk : Disk)
    (hc : Consistent s disk) :
    ∃ s' disk', Server.recover host root disk = .ok (s', disk') ∧
      (∀ id, mapGet s'.Builders id = mapGet s.Builders id) ∧
      (∀ p, mapGet s'.apps p = mapGet s.apps p) := by
  obtain ⟨hb, ha, h1, h2, h3, h4⟩ := hc
  have hman : ∀ name c stem, (name, Node.file c) ∈ disk.builds →
      cutAtDot name = some (stem, "json") → ∃ b, c = .manifest b := by
    intro name c stem hmem hcut
    obtain ⟨b, hb', _⟩ := h1 name c stem hmem hcut
    exact ⟨b, hb'⟩
  have hinst : ∀ name c, (name, Node.file c) ∈ disk.apps → ∃ m, c = .instances m := by
    intro name c hmem
    obtain ⟨m, hm, _⟩ := h3 name c hmem
    exact ⟨m, hm⟩
  refine ⟨_, _, recover_eq host root disk hb hman hinst, ?_, ?_⟩
  · intro id
    simp only
    cases hq : mapGet s.Builders id with
    | some b =>
      obtain ⟨hmem, hcut⟩ := h2 id b hq
      exact collect_found buildKey buildKey_inj id b disk.builds [] hb _ hmem
        ((buildKey_some _ _ id b).2 ⟨rfl, hcut⟩)
    | none =>
      cases hq' : mapGet (collect buildKey disk.builds []) id with
      | none => rfl
      | some b =>
        exfalso
        rcases collect_origin buildKey id b disk.builds [] hq' with h | ⟨e, he, hk⟩
        · simp [mapGet] at h
        · obtain ⟨name, node⟩ := e
          obtain ⟨rfl, hcut⟩ := (buildKey_some name node id b).1 hk
          obtain ⟨b', _, hget⟩ := h1 name _ id he hcut
          rw [hq] at hget
          simp at hget
  · intro p
    simp only
    cases hq : mapGet s.apps p with
    | some m =>
      exact collect_found appKey appKey_inj p m disk.apps [] ha _ (h4 p m hq) rfl
    | none =>
      cases hq' : mapGet (collect appKey disk.apps []) p with
      | none => rfl
      | some m =>
        exfalso
        rcases collect_origin appKey p m disk.apps [] hq' with h | ⟨e, he, hk⟩
        · simp [mapGet] at h
        · obtain ⟨name, node⟩ := e
          obtain ⟨rfl, rfl⟩ := (appKey_some name node p m).1 hk
          obtain ⟨m', _, hget⟩ := h3 name _ he
          rw [hq] at hget
          simp at hget

/-! ### Requests keep the index and the storage root in step -/

theorem consistent_set_other (s s' : Server) (disk : Disk) (logs' : Dir)
    (name : String) (node : Node)
    (hB : s'.Builders = s.Builders) (hA : s'.apps = s.apps) (hc : Consistent s disk)
    (hcut : ∀ stem, cutAtDot name ≠ some (stem, "json")) :
    Consistent s' ⟨mapSet disk.builds name node, logs', disk.apps⟩ := by
  obtain ⟨hb, ha, h1, h2, h3, h4⟩ := hc
  refine ⟨mapSet_nodup _ _ _ hb, ha, ?_, ?_, ?_, ?_⟩
  · intro n' c stem hmem hc'
    rcases mem_mapSet _ _ _ _ hb hmem with e | ⟨hm, _⟩
    · simp only [Prod.mk.injEq] at e
      rw [e.1] at hc'
      exact absurd hc' (hcut stem)
    · rw [hB]; exact h1 n' c stem hm hc'
  · intro id b hget
    rw [hB] at hget
    obtain ⟨hm, hc'⟩ := h2 id b hget
    refine ⟨mem_mapSet_of_ne _ _ _ _ hm ?_, hc'⟩
    intro e
    simp only at e
    rw [e] at hc'
    exact hcut id hc'
  · intro n' c hmem
    rw [hA]; exact h3 n' c hmem
  · intro p m hget
    rw [hA] at hget
    exact h4 p m hget

theorem consistent_add_dir (s s' : Server) (disk : Disk) (logs' : Dir) (n : String)
    (hB : s'.Builders = s.Builders) (hA : s'.apps = s.apps) (hc : Consistent s disk)
    (habs : mapGet disk.builds n = none) :
    Consistent s' ⟨mapSet disk.builds n .dir, logs', disk.apps⟩ := by
  obtain ⟨hb, ha, h1, h2, h3, h4⟩ := hc
  refine ⟨mapSet_nodup _ _ _ hb, ha, ?_, ?_, ?_, ?_⟩
  · intro n' c stem hmem hc'
    rcases mem_mapSet _ _ _ _ hb hmem with e | ⟨hm, _⟩
    · simp at e
    · rw [hB]; exact h1 n' c stem hm hc'
  · intro id b hget
    rw [hB] at hget
    obtain ⟨hm, hc'⟩ := h2 id b hget
    refine ⟨mem_mapSet_of_ne _ _ _ _ hm ?_, hc'⟩
    intro e
    simp only at e
    rw [← e, mem_mapGet _ _ _ hb hm] at habs
    simp at habs
  · intro n' c hmem
    rw [hA]; exact h3 n' c hmem
  · intro p m hget
    rw [hA] at hget
    exact h4 p m hget

theorem consistent_set_manifest (s s' : Server) (disk : Disk) (logs' : Dir)
    (id : String) (b : Builder)
    (hB : s'.Builders = mapSet s.Builders id b) (hA : s'.apps = s.apps)
    (hc : Consistent s disk) (hcut : cutAtDot (id ++ ".json") = some (id, "json")) :
    Consistent s' ⟨mapSet disk.builds (id ++ ".json") (.file (.manifest b)), logs',
      disk.apps⟩ := by
  obtain ⟨hb, ha, h1, h2, h3, h4⟩ := hc
  refine ⟨mapSet_nodup _ _ _ hb, ha, ?_, ?_, ?_, ?_⟩
  · intro n' c stem hmem hc'
    rw [hB]
    rcases mem_mapSet _ _ _ _ hb hmem with e | ⟨hm, hne⟩
    · simp only [Prod.mk.injEq, Node.file.injEq] at e
      rw [e.1, hcut] at hc'
      simp only [Option.some.injEq, Prod.mk.injEq, and_true] at hc'
      subst hc'
      exact ⟨b, e.2, mapGet_mapSet_self _ _ _⟩
    · obtain ⟨b', hb', hg⟩ := h1 n' c stem hm hc'
      refine ⟨b', hb', ?_⟩
      rw [mapGet_mapSet_ne _ _ _ _ ?_]
      · exact hg
      · intro e
        subst e
        apply hne
        simp only
        rw [← dot_json]
        exact cutAtDot_name n' stem "json" hc'
  · intro id' b' hget
    rw [hB] at hget
    by_cases hid : id' = id
    · subst hid
      rw [mapGet_mapSet_self] at hget
      simp only [Option.some.injEq] at hget
      subst hget
      exact ⟨mem_mapSet_self _ _ _, hcut⟩
    · rw [mapGet_mapSet_ne _ _ _ _ hid] at hget
      obtain ⟨hm, hc'⟩ := h2 id' b' hget
      refine ⟨mem_mapSet_of_ne _ _ _ _ hm ?_, hc'⟩
      intro e
      simp only at e
      rw [e, hcut] at hc'
      simp only [Option.some.injEq, Prod.mk.injEq, and_true] at hc'
      exact hid hc'.symm
  · intro n' c hmem
    rw [hA]; exact h3 n' c hmem
  · intro p m hget
    rw [hA] at hget
    exact h4 p m hget

theorem consistent_register (w : World) (item : App) (s s' : Server) (disk disk' : Disk)
    (hc : Consistent s disk) (hname : path.entryOf item.Name = some item.Name)
    (h : s.register w disk item = .ok (s', disk')) : Consistent s' disk' := by
  obtain ⟨n, hn, e1, e2⟩ := register_ok w s s' disk disk' item h
  rw [hname] at hn
  simp only [Option.some.injEq] at hn
  subst hn
  obtain ⟨hb, ha, h1, h2, h3, h4⟩ := hc
  subst e1 e2
  refine ⟨hb, mapSet_nodup _ _ _ ha, h1, h2, ?_, ?_⟩
  · intro n' c hmem
    rcases mem_mapSet _ _ _ _ ha hmem with e | ⟨hm, hne⟩
    · simp only [Prod.mk.injEq, Node.file.injEq] at e
      exact ⟨_, e.2, by rw [e.1]; exact mapGet_mapSet_self _ _ _⟩
    · obtain ⟨m, hm', hg⟩ := h3 n' c hm
      refine ⟨m, hm', ?_⟩
      simp only at hne
      show mapGet (mapSet s.apps item.Name _) n' = some m
      rw [mapGet_mapSet_ne _ _ _ _ hne]
      exact hg
  · intro p m hget
    simp only at hget
    by_cases hp : p = item.Name
    · subst hp
      rw [mapGet_mapSet_self] at hget
      simp only [Option.some.injEq] at hget
      subst hget
      exact mem_mapSet_self _ _ _
    · rw [mapGet_mapSet_ne _ _ _ _ hp] at hget
      exact mem_mapSet_of_ne _ _ _ _ (h4 p m hget) hp

theorem writeFile_err (d : Dir) (name : String) (c : Content) (f : Option Fault)
    (e : String) (d' : Dir) (h : writeFile d name c f = (some e, d')) :
    d' = d ∨ d' = mapSet d name (.file (.raw [])) := by
  unfold writeFile at h
  split at h
  · simp only [Prod.mk.injEq] at h
    exact Or.inl h.2.symm
  · split at h
    · simp only [Prod.mk.injEq] at h
      exact Or.inl h.2.symm
    · simp only [Prod.mk.injEq] at h
      exact Or.inr h.2.symm
    · simp at h

theorem renameLog_ok (t : Toolchain) (b : Builder) (d d' : Dir)
    (h : renameLog t b d = (none, d')) :
    d' = mapSet d (b.Name ++ ".build") (.file (.raw t.log)) := by
  unfold renameLog at h
  split at h
  · simp at h
  · split at h
    · simp at h
    · simp only [Prod.mk.injEq, true_and] at h
      exact h.symm

theorem Make_effect (t : Toolchain) (b : Builder) (dir : Dir) (m : Made)
    (h : b.Make t dir = some m) :
    ((∃ e, m.result = .error e) ∧
      (Stage.manifest ∉ m.ran →
        m.dir = dir ∨ ∃ sum c, m.dir = mapSet dir (hex sum ++ ".gz") (.file c))) ∨
    (∃ sum bytes, m.result = .ok (hex sum) ∧ m.builder.Name = hex sum ∧
      m.dir = mapSet (mapSet (mapSet dir (hex sum ++ ".gz") (.file (.gz bytes)))
        (hex sum ++ ".json") (.file (.manifest m.builder)))
        (hex sum ++ ".build") (.file (.raw t.log))) := by
  unfold Builder.Make at h
  cases hc : t.createLog with
  | some e =>
    simp only [hc, Option.some.injEq] at h
    subst h
    exact Or.inl ⟨⟨e, rfl⟩, fun _ => Or.inl rfl⟩
  | none =>
    simp only [hc] at h
    cases hk : b.checkout t with
    | none => simp [hk] at h
    | some r =>
      cases r with
      | some e =>
        simp only [hk, Option.some.injEq] at h
        subst h
        exact Or.inl ⟨⟨e, rfl⟩, fun _ => Or.inl rfl⟩
      | none =>
        simp only [hk] at h
        cases hco : b.compile t with
        | some e =>
          simp only [hco, Option.some.injEq] at h
          subst h
          exact Or.inl ⟨⟨e, rfl⟩, fun _ => Or.inl rfl⟩
        | none =>
          simp only [hco] at h
          cases hcs : b.checksum t with
          | error e =>
            simp only [hcs, Option.some.injEq] at h
            subst h
            exact Or.inl ⟨⟨e, rfl⟩, fun _ => Or.inl rfl⟩
          | ok b1 =>
            simp only [hcs] at h
            unfold Builder.checksum at hcs
            cases hbin : t.binary with
            | error e => simp [hbin] at hcs
            | ok bytes =>
              simp only [hbin, Except.ok.injEq] at hcs
              have hname : b1.Name = hex (t.md5sum bytes) := by rw [← hcs]
              cases hsv : b1.save t dir with
              | mk r1 dir1 =>
                simp only [hsv] at h
                unfold Builder.save at hsv
                simp only [hbin] at hsv
                cases r1 with
                | some e =>
                  simp only [Option.some.injEq] at h
                  subst h
                  refine Or.inl ⟨⟨e, rfl⟩, fun _ => ?_⟩
                  cases hso : t.saveOpen with
                  | some e0 =>
                    simp only [hso, Prod.mk.injEq] at hsv
                    exact Or.inl hsv.2.symm
                  | none =>
                    simp only [hso] at hsv
                    rcases writeFile_err _ _ _ _ _ _ hsv with e1 | e1
                    · exact Or.inl e1
                    · exact Or.inr ⟨t.md5sum bytes, _, by rw [e1, hname]⟩
                | none =>
                  simp only at h
                  have hd1 : dir1 = mapSet dir (b1.Name ++ ".gz") (.file (.gz bytes)) := by
                    cases hso : t.saveOpen with
                    | some e0 => simp [hso] at hsv
                    | none =>
                      simp only [hso] at hsv
                      exact writeFile_ok _ _ _ _ _ hsv
                  cases hmf : writeFile dir1 (b1.Name ++ ".json") (.manifest b1)
                      t.manifestFault with
                  | mk r2 dir2 =>
                    simp only [hmf] at h
                    cases r2 with
                    | some e =>
                      simp only [Option.some.injEq] at h
                      subst h
                      exact Or.inl ⟨⟨e, rfl⟩, fun hm => absurd (by simp) hm⟩
                    | none =>
                      simp only at h
                      have hd2 := writeFile_ok _ _ _ _ _ hmf
                      cases hrn : renameLog t b1 dir2 with
                      | mk r3 dir3 =>
                        simp only [hrn] at h
                        cases r3 with
                        | some e =>
                          simp only [Option.some.injEq] at h
                          subst h
                          exact Or.inl ⟨⟨e, rfl⟩, fun hm => absurd (by simp) hm⟩
                        | none =>
                          simp only [Option.some.injEq] at h
                          subst h
                          have hd3 := renameLog_ok _ _ _ _ hrn
                          refine Or.inr ⟨t.md5sum bytes, bytes, ?_, hname, ?_⟩
                          · simp only [hname]
                          · simp only
                            rw [hd3, hd2, hd1, hname]

theorem cut_hex (sum : List Nat) (ext full : String) (h : "." ++ ext = full) :
    cutAtDot (hex sum ++ full) = some (hex sum, ext) := by
  have := cutAtDot_append (hex sum) ext (hex_no_dot sum)
  rw [String.append_assoc, h] at this
  exact this

theorem get_fields (s : Server) (name : String) :
    (s.get name).2.Builders = s.Builders ∧ (s.get name).2.apps = s.apps := by
  unfold Server.get
  cases mapGet s.Requests name <;> exact ⟨rfl, rfl⟩

theorem consistent_build (w : BuildWorld) (b : Build) (s s' : Server) (disk disk' : Disk)
    (reply : Reply) (ran : List Stage) (hc : Consistent s disk)
    (h : s.makeBuilder w disk b = some (.ok (s', disk', reply, ran)))
    (hran : reply.err = none ∨ Stage.manifest ∉ ran) : Consistent s' disk' := by
  unfold Server.makeBuilder at h
  simp only at h
  cases ht : w.tempDir with
  | error e =>
    simp only [ht, Option.some.injEq, Except.ok.injEq, Prod.mk.injEq] at h
    rw [← h.1, ← h.2.1]
    exact hc
  | ok n =>
    simp only [ht] at h
    split at h
    · simp at h
    · rename_i hcond
      simp only [not_or, Decidable.not_not, Bool.not_eq_true, Option.not_isSome,
        Option.isNone_iff_eq_none] at hcond
      have habs : mapGet disk.builds n = none := hcond.2
      obtain ⟨gB, gA⟩ := get_fields s b.Filename
      cases hg : s.get b.Filename with
      | mk r s1 =>
        rw [hg] at gB gA
        simp only at gB gA
        simp only [hg] at h
        split at h
        · simp at h
        · rename_i r' logs' hsave
          split at h
          · simp at h
          · rename_i m hmake
            have hbase := consistent_add_dir s
              { s1 with Requests := mapSet s1.Requests b.Filename r' } disk logs' n gB gA hc habs
            rcases Make_effect _ _ _ _ hmake with ⟨⟨e, he⟩, hdir⟩ | ⟨sum, bytes, hres, hnm, hdir⟩
            · simp only [he, Option.some.injEq, Except.ok.injEq, Prod.mk.injEq] at h
              obtain ⟨hs', hd', hr', hran'⟩ := h
              rw [← hr'] at hran
              rw [← hran'] at hran
              have hman : Stage.manifest ∉ m.ran := by
                rcases hran with h0 | h0
                · simp at h0
                · exact h0
              rw [← hs', ← hd']
              rcases hdir hman with e1 | ⟨sum, c, e1⟩
              · rw [e1]; exact hbase
              · rw [e1]
                exact consistent_set_other _ _ _ logs' _ _ rfl rfl hbase (by
                  intro stem
                  rw [cut_hex sum "gz" ".gz" rfl]
                  simp only [ne_eq, Option.some.injEq, Prod.mk.injEq, not_and]
                  intro _; decide)
            · simp only [hres, Option.some.injEq, Except.ok.injEq, Prod.mk.injEq] at h
              obtain ⟨hs', hd', _, _⟩ := h
              rw [← hs', ← hd', hdir]
              have c1 := consistent_set_other _
                { s1 with Requests := mapSet s1.Requests b.Filename r' } _ logs'
                (hex sum ++ ".gz") (.file (.gz bytes)) rfl rfl hbase (by
                  intro stem
                  rw [cut_hex sum "gz" ".gz" rfl]
                  simp only [ne_eq, Option.some.injEq, Prod.mk.injEq, not_and]
                  intro _; decide)
              have c2 := consistent_set_manifest
                { s1 with Requests := mapSet s1.Requests b.Filename r' }
                { s1 with Requests := mapSet s1.Requests b.Filename r',
                          Builders := mapSet s1.Builders (hex sum) m.builder } _ logs'
                (hex sum) m.builder rfl rfl c1
                (cut_hex sum "json" ".json" rfl)
              exact consistent_set_other _ _ _ logs' _ _ rfl rfl c2 (by
                intro stem
                rw [cut_hex sum "build" ".build" rfl]
                simp only [ne_eq, Option.some.injEq, Prod.mk.injEq, not_and]
                intro _; decide)

theorem reach_consistent (host root : String) (s : Server) (disk : Disk)
    (h : Reach host root s disk) : Consistent s disk := by
  induction h with
  | boot disk0 s disk hb ha h => exact consistent_boot host root disk0 s disk hb ha h
  | register w item s s' disk disk' _ hname h ih =>
    exact consistent_register w item s s' disk disk' ih hname h
  | build w b s s' disk disk' reply ran _ h hran ih =>
    exact consistent_build w b s s' disk disk' reply ran ih h hran

/-- C10 (counterexample): on an empty storage root the registration of the
program name `x/../y` is persisted to the file `apps/y`; the registry before
the restart has the key `x/../y`, the registry of the restarted server has
the key `y` instead.  And a build whose log cannot be renamed is not in the
builder index, but its manifest is on disk and the restarted server indexes
it. -/
theorem restart_differs :
    (do
      let (s0, d0) ← Server.recover "http://ship:8080" "/srv" ⟨[], [], []⟩
      let (s, d) ← s0.register sampleWorld d0 ⟨"x/../y", "web-1:9000", "h1"⟩
      let (s', _) ← Server.recover "http://ship:8080" "/srv" d
      pure (mapGet s.apps "x/../y", mapGet s'.apps "x/../y", mapGet s'.apps "y"))
    = (.ok (some [("web-1:9000", ⟨"x/../y", "web-1:9000", "h1"⟩)], none,
        some [("web-1:9000", ⟨"x/../y", "web-1:9000", "h1"⟩)]) : Outcome _) ∧
    (match Server.recover "http://ship:8080" "/srv" ⟨[], [], []⟩ with
      | .error _ => none
      | .ok (s0, d0) =>
        match s0.makeBuilder
          ⟨sampleWorld, .ok "app-1", { sampleTool with renameFault := some "permission denied" }⟩
          d0 sampleBuild with
        | some (.ok (s, d, reply, _)) =>
          match Server.recover "http://ship:8080" "/srv" d with
          | .ok (s', _) =>
            some (reply.err, (mapGet s.Builders "ab").isSome, (mapGet s'.Builders "ab").isSome)
          | .error _ => none
        | _ => none)
    = some (some "permission denied", false, true) := by
  constructor
  · rfl
  · rfl

/-- C10 (amended): for every state reached from a recovered server by
registrations whose program name is the name of a direct entry of the apps
directory and by build requests that succeed or fail before the manifest is
written, a fresh server recovered from the storage root left behind has the
same builder under every BuildID (same `Workspace`, `Root`, `Name`, `Build`)
and the same instance map under every program name. -/
theorem restart_reproduces_index_and_registry (host root : String) (s : Server)
    (disk : Disk) (h : Reach host root s disk) :
    ∃ s' disk', Server.recover host root disk = .ok (s', disk') ∧
      (∀ id, mapGet s'.Builders id = mapGet s.Builders id) ∧
      (∀ p, mapGet s'.apps p = mapGet s.apps p) :=
  recover_consistent host root s disk (reach_consistent host root s disk h)

theorem restart_reproduces_index_and_registry_witness :
    ∃ s disk, Reach "http://ship:8080" "/srv" s disk ∧
      (mapGet s.Builders "ab").isSome = true ∧ (mapGet s.apps "app").isSome = true ∧
      ∃ s' disk', Server.recover "http://ship:8080" "/srv" disk = .ok (s', disk') ∧
        (∀ id, mapGet s'.Builders id = mapGet s.Builders id) ∧
        (∀ p, mapGet s'.apps p = mapGet s.apps p) :=
  have hr : Reach "http://ship:8080" "/srv" _ _ :=
    Reach.register sampleWorld ⟨"app", "web-1:9000", "h1"⟩ _ _ _ _
      (Reach.build sampleBuildWorld sampleBuild _ _ _ _ _ _
        (Reach.boot ⟨[], [], []⟩ _ _ List.nodup_nil List.nodup_nil rfl)
        rfl (Or.inl rfl))
      (by decide) rfl
  ⟨_, _, hr, by decide, by decide,
    restart_reproduces_index_and_registry "http://ship:8080" "/srv" _ _ hr⟩

/-! ### The feed queue and the request logs -/

/-- C13 (what the code does): `makeDeploy` looks the program up in the
instance registry in the body of the function, that is in the goroutine of
the HTTP handler and not in a closure sent on `s.feed`; the accesses of
`makeBuilder`, of the registration handler and of `Write` are all made by
the consumer. -/
theorem makeDeploy_reads_registry_in_handler :
    (∀ (s : Server) (d : Deploy),
      (⟨.handler, .apps, false⟩ : Access) ∈ s.makeDeployAccesses d ∧
      ¬ ∀ a ∈ s.makeDeployAccesses d, a.task = .consumer) ∧
    (∀ workspace made, ∀ a ∈ Server.makeBuilderAccesses workspace made,
      a.task = .consumer) ∧
    (∀ a ∈ Server.registerAccesses, a.task = .consumer) ∧
    (∀ a ∈ Server.writeAccesses, a.task = .consumer) := by
  refine ⟨fun s d => ?_, ?_, by decide, by decide⟩
  · have h : (⟨.handler, .apps, false⟩ : Access) ∈ s.makeDeployAccesses d :=
      List.mem_cons_self _ _
    exact ⟨h, fun hall => absurd (hall _ h) (by decide)⟩
  · intro workspace made
    cases workspace <;> cases made <;> decide

theorem readLogs_skips_dotted (a b date kind : String) (h : '.' ∉ a.data) (c : Content)
    (s : Server) (rest : List (String × Node)) :
    Server.readLogs s ((a ++ "." ++ (b ++ "-" ++ date ++ "." ++ kind), .file c) :: rest)
      = Server.readLogs s rest := by
  have hcut := cutAtDot_append a (b ++ "-" ++ date ++ "." ++ kind) h
  have hdash : '-' ∈ (b ++ "-" ++ date ++ "." ++ kind).data := by
    simp [String.data_append]
  have h1 : ¬ (b ++ "-" ++ date ++ "." ++ kind) = "build" := by
    intro e
    rw [e] at hdash
    revert hdash
    decide
  have h2 : ¬ (b ++ "-" ++ date ++ "." ++ kind) = "deploy" := by
    intro e
    rw [e] at hdash
    revert hdash
    decide
  simp only [Server.readLogs, hcut, h1, h2, if_false]

/-- C11 (what the code does): the log of a program whose name holds a dot,
`a.b`, is skipped by the loop of `readRequests`, whatever it holds: the name
is cut at its first dot and what follows is neither `build` nor `deploy`.
So the build request of the program `my.app`, appended to the log
`my.app-20231114.build`, is not replayed: the history of `my.app` is empty
after `readRequests`.  The same request for `app` is replayed. -/
theorem readRequests_skips_dotted_program :
    (∀ (a b date kind : String) (c : Content) (s : Server) (rest : List (String × Node)),
      '.' ∉ a.data →
      Server.readLogs s ((a ++ "." ++ (b ++ "-" ++ date ++ "." ++ kind), .file c) :: rest)
        = Server.readLogs s rest) ∧
    (match freshServer.makeBuilder ⟨sampleWorld, .ok "my.app-1", sampleTool⟩ ⟨[], [], []⟩
        { sampleBuild with Filename := "my.app" } with
      | some (.ok (s, disk, _, _)) =>
        some (disk.logs.map Prod.fst, (s.history "my.app").1.length,
          (freshServer.readRequests disk.logs).toOption.map
            (fun s' => (s'.history "my.app").1.length))
      | _ => none)
      = some (["my.app-20231114.build"], 1, some 0) ∧
    cutAtDot "my.app-20231114.build" = some ("my", "app-20231114.build") ∧
    (match freshServer.makeBuilder sampleBuildWorld ⟨[], [], []⟩ sampleBuild with
      | some (.ok (s, disk, _, _)) =>
        some (disk.logs.map Prod.fst, (s.history "app").1.length,
          (freshServer.readRequests disk.logs).toOption.map
            (fun s' => decide (s'.history "app" = s.history "app")))
      | _ => none)
      = some (["app-20231114.build"], 1, some true) := by
  refine ⟨fun a b date kind c s rest h => readLogs_skips_dotted a b date kind h c s rest,
    by rfl, by decide, by rfl⟩

/-! ### The walk over the import graph -/

theorem Post.trans (env : GoEnv) (names : List String) (p p1 p2 : Project)
    (v1 v2 t1 t2 : List String) (h1 : Post env names p p1 v1 t1)
    (h2 : Post env names p1 p2 v2 t2) : Post env names p p2 (v1 ++ v2) (t1 ++ t2) where
  keep := fun k pkg h => h2.keep k pkg (h1.keep k pkg h)
  good := h2.good
  closed := by
    intro k pkg hk hnone hgo item hitem
    cases hq : mapGet p1.dependencies k with
    | some pkg1 =>
      have e := h2.keep k pkg1 hq
      rw [hk] at e
      simp only [Option.some.injEq] at e
      subst e
      have := h1.closed k pkg hq hnone hgo item hitem
      cases hi : mapGet p1.dependencies item with
      | none => rw [hi] at this; simp at this
      | some pi => rw [h2.keep item pi hi]; rfl
    | none => exact h2.closed k pkg hk hq hgo item hitem
  sound := by
    intro k hk
    rcases h2.sound k hk with h' | ⟨t, ht, hw⟩
    · rcases h1.sound k h' with h'' | ⟨t, ht, hw⟩
      · exact Or.inl h''
      · exact Or.inr ⟨t, List.mem_append_left _ ht, hw⟩
    · exact Or.inr ⟨t, List.mem_append_right _ ht, hw⟩
  calls := by
    refine ⟨List.nodup_append.2 ⟨h1.calls.1, h2.calls.1, ?_⟩, ?_⟩
    · intro x hx1 hx2
      have a := (h1.calls.2 x hx1).2
      have b := (h2.calls.2 x hx2).1
      rw [b] at a
      simp at a
    · intro x hx
      rcases List.mem_append.1 hx with hx | hx
      · refine ⟨(h1.calls.2 x hx).1, ?_⟩
        have a := (h1.calls.2 x hx).2
        cases hi : mapGet p1.dependencies x with
        | none => rw [hi] at a; simp at a
        | some pi => rw [h2.keep x pi hi]; rfl
      · refine ⟨?_, (h2.calls.2 x hx).2⟩
        cases hi : mapGet p.dependencies x with
        | none => rfl
        | some pi =>
          have a := (h2.calls.2 x hx).1
          rw [h1.keep x pi hi] at a
          simp at a

end ship
